import Mathlib

/-!
Shallow embedding of the inventory-management program (Rust sources:
`src/main.rs`, `src/allocators.rs`, `src/filters.rs`, `src/errors.rs`).

Modelling conventions:
* `usize` counters and coordinates become `Nat` (all arithmetic in the
  program stays far from overflow; the one `count -= 1` is only executed
  when the count is positive, which the ledger invariant guarantees).
* `DateTime<Local>` becomes `Nat` (only its total order and equality are
  used by the program).
* `HashMap<K, V>` becomes an association list `List (K × V)` with unique
  keys; all HashMap operations used by the program (`get`, `contains_key`,
  `entry().or_insert`, `entry().and_modify`, `remove`, `retain`,
  `values`) are order-insensitive, so the association-list rendering is
  observationally faithful.  `BTreeMap` becomes an association list kept
  sorted by key (insertion places a fresh key at its sorted position),
  so range queries traverse keys in increasing order exactly as in Rust.
* `Option`/`Result` map to `Option`/`Except`; `&mut self` methods become
  functions returning the updated value.
-/

/-- `MAX_INVENTORY_SIZE` from `main.rs`: the grid extent on each axis. -/
def MAX_INVENTORY_SIZE : Nat := 3

/-- `Slot` from `main.rs`: a (row, shelf, zone) coordinate. -/
structure Slot where
  row : Nat
  shelf : Nat
  zone : Nat
deriving DecidableEq

/-- `Slot::distance` from `main.rs`: Manhattan distance row+shelf+zone. -/
def Slot.distance (s : Slot) : Nat := s.row + s.shelf + s.zone

/-- `Quality` from `main.rs`; `DateTime<Local>` is modelled as `Nat`. -/
inductive Quality where
  | Fragile (expiration_date : Nat) (max_row : Nat)
  | OverSized (size : Nat)
  | Normal
deriving DecidableEq

/-- `Item` from `main.rs`; the `timestamp` is `Option Nat`. -/
structure Item where
  id : Nat
  name : String
  quantity : Nat
  quality : Quality
  timestamp : Option Nat
deriving DecidableEq

/-- `Item::new` from `main.rs`: constructs an item with no timestamp. -/
def Item.new (id : Nat) (name : String) (quantity : Nat) (quality : Quality) : Item :=
  { id := id, name := name, quantity := quantity, quality := quality, timestamp := none }

/-- `Item::update_timestamp` from `main.rs`; `Local::now()` is passed in
as the explicit argument `now`. -/
def Item.update_timestamp (it : Item) (now : Nat) : Item :=
  { it with timestamp := some now }

/-- `impl PartialEq for Item` from `main.rs`: field-wise comparison that
ignores the `timestamp` field. -/
def itemEq (a b : Item) : Bool :=
  decide (a.id = b.id) && decide (a.name = b.name) &&
    decide (a.quantity = b.quantity) && decide (a.quality = b.quality)

/-- The occupancy map `HashMap<Slot, Item>` as an association list. -/
abbrev Inventory := List (Slot × Item)

/-- `HashMap::get` on the occupancy map: first binding of the key. -/
def lookupSlot (inv : Inventory) (s : Slot) : Option Item :=
  match inv with
  | [] => none
  | (s', it) :: rest => if s' = s then some it else lookupSlot rest s

/-- Generic `HashMap::get` for the reverse maps. -/
def lookupKey {κ β : Type} [DecidableEq κ] (m : List (κ × β)) (k : κ) : Option β :=
  match m with
  | [] => none
  | (k', v) :: rest => if k' = k then some v else lookupKey rest k

/-- Rust half-open range `a..b` as a list. -/
def rustRange (a b : Nat) : List Nat := List.range' a (b - a)

/-- `AllocStrategy::get_item_size` from `allocators.rs`. -/
def get_item_size (item : Item) : Nat :=
  match item.quality with
  | .Normal | .Fragile _ _ => 1
  | .OverSized size => size

/-- `AllocStrategy::is_slot_available` from `allocators.rs`: grid-overflow
check, then forward collision check over the candidate footprint, then
backward check against trailing spans of earlier occupants. -/
def is_slot_available (slot : Slot) (item : Item) (inv : Inventory) : Bool :=
  let size := get_item_size item
  if MAX_INVENTORY_SIZE < slot.zone + size then false
  else
    let stop := slot.zone + size
    let is_blocked_forward :=
      (rustRange slot.zone stop).any fun z =>
        (lookupSlot inv ⟨slot.row, slot.shelf, z⟩).isSome
    if is_blocked_forward then false
    else
      let is_blocked_backward :=
        (rustRange 0 slot.zone).any fun z =>
          match lookupSlot inv ⟨slot.row, slot.shelf, z⟩ with
          | some it => decide (slot.zone < get_item_size it + z)
          | none => false
      !is_blocked_backward

/-- The category-specific acceptance applied inside both `alloc` loops:
`Normal`/`OverSized` accept any slot, `Fragile` additionally requires
`slot.row <= max_row` (the `match` guard in `allocators.rs`). -/
def categoryOk (item : Item) (slot : Slot) : Bool :=
  match item.quality with
  | .Normal | .OverSized _ => true
  | .Fragile _ max_row => decide (slot.row ≤ max_row)

/-- `RoundRobinAllocator` from `allocators.rs`. -/
structure RoundRobinAllocator where
  prev_alloc : Option Slot
deriving DecidableEq

/-- `RoundRobinAllocator::get_start_pos`. -/
def RoundRobinAllocator.get_start_pos (a : RoundRobinAllocator) : Slot :=
  match a.prev_alloc with
  | some slot => slot
  | none => ⟨0, 0, 0⟩

/-- The candidate sequence of `RoundRobinAllocator::alloc`:
`iproduct!(row_start..N, shelf_start..N, zone_start..N)` with the row
outermost and the zone innermost. -/
def rrCandidates (start : Slot) : List Slot :=
  (rustRange start.row MAX_INVENTORY_SIZE).flatMap fun row =>
    (rustRange start.shelf MAX_INVENTORY_SIZE).flatMap fun shelf =>
      (rustRange start.zone MAX_INVENTORY_SIZE).map fun zone =>
        ⟨row, shelf, zone⟩

/-- `RoundRobinAllocator::alloc` from `allocators.rs`: walk the candidate
product, skip unavailable slots, return the first slot passing the
category match (recording it as `prev_alloc`); on exhaustion reset
`prev_alloc` to `none` and fail. -/
def RoundRobinAllocator.alloc (a : RoundRobinAllocator) (item : Item)
    (inv : Inventory) : Option Slot × RoundRobinAllocator :=
  match (rrCandidates a.get_start_pos).find? fun slot =>
      is_slot_available slot item inv && categoryOk item slot with
  | some slot => (some slot, ⟨some slot⟩)
  | none => (none, ⟨none⟩)

/-- `GreedyAllocator` from `allocators.rs` (stateless). -/
structure GreedyAllocator where
deriving DecidableEq

/-- The six permutations of a triple, in the order `itertools`'
`permutations(3)` yields them (lexicographic by index). -/
def perms3 (a b c : Nat) : List (Nat × Nat × Nat) :=
  [(a, b, c), (a, c, b), (b, a, c), (b, c, a), (c, a, b), (c, b, a)]

/-- `itertools`' `unique()`: keep the first occurrence of each element. -/
def uniqueAux {α : Type} [DecidableEq α] (seen : List α) : List α → List α
  | [] => []
  | x :: xs => if x ∈ seen then uniqueAux seen xs else x :: uniqueAux (x :: seen) xs

/-- `itertools`' `unique()` adapter with no elements seen yet. -/
def uniqueList {α : Type} [DecidableEq α] (l : List α) : List α := uniqueAux [] l

/-- `GreedyAllocator::slots_by_distance` from `allocators.rs`: all triples
summing to `dist`, generated as `i`, `j`, `k = dist - i - j`, expanded to
all permutations, de-duplicated, filtered to the grid, made into slots. -/
def GreedyAllocator.slots_by_distance (dist : Nat) : List Slot :=
  ((uniqueList ((List.range (dist + 1)).flatMap fun i =>
      (List.range (dist - i + 1)).flatMap fun j =>
        perms3 i j (dist - i - j))).filter fun p =>
    decide (p.1 < MAX_INVENTORY_SIZE) && decide (p.2.1 < MAX_INVENTORY_SIZE) &&
      decide (p.2.2 < MAX_INVENTORY_SIZE)).map fun p => ⟨p.1, p.2.1, p.2.2⟩

/-- The candidate sequence of `GreedyAllocator::alloc`: distance layers
`0 ..= 3 * (MAX_INVENTORY_SIZE - 1)` concatenated. -/
def gCandidates : List Slot :=
  (List.range (3 * (MAX_INVENTORY_SIZE - 1) + 1)).flatMap
    GreedyAllocator.slots_by_distance

/-- `GreedyAllocator::alloc` from `allocators.rs`: first slot in the
distance-layered candidate sequence that is available and passes the
category match; the allocator has no state to update. -/
def GreedyAllocator.alloc (a : GreedyAllocator) (item : Item)
    (inv : Inventory) : Option Slot × GreedyAllocator :=
  (gCandidates.find? fun slot =>
    is_slot_available slot item inv && categoryOk item slot, a)

example :
    (RoundRobinAllocator.alloc ⟨none⟩ (Item.new 0 "A" 1 .Normal) []).1 =
      some ⟨0, 0, 0⟩ := by decide

example :
    (RoundRobinAllocator.alloc ⟨none⟩ (Item.new 0 "A" 1 (.OverSized 3)) []).1 =
      some ⟨0, 0, 0⟩ := by decide

example :
    (RoundRobinAllocator.alloc ⟨some ⟨0, 0, 0⟩⟩ (Item.new 1 "B" 1 .Normal)
      [(⟨0, 0, 0⟩, Item.new 0 "A" 1 (.OverSized 3))]).1 = some ⟨0, 1, 0⟩ := by decide

example :
    (GreedyAllocator.alloc ⟨⟩ (Item.new 2 "C" 1 .Normal)
      [(⟨0, 0, 0⟩, Item.new 0 "A" 1 (.OverSized 3)),
       (⟨0, 1, 0⟩, Item.new 1 "B" 1 .Normal)]).1 = some ⟨1, 0, 0⟩ := by decide

/-- `ManagerError` from `errors.rs` (display-only payloads omitted:
`filters` carried strings, `allocator` its description). -/
inductive ManagerError where
  | FilteredItem (item : Item)
  | FailedAllocation (item : Item)
  | NotFound (slot : Slot)
deriving DecidableEq

/-- The three `Filter` implementations of `filters.rs`, each with its
configuration. -/
inductive FilterCfg where
  | LimitOverSized (max_allowed : Nat)
  | LimitItemQuantity (id : Nat) (max_allowed : Nat)
  | BanQuality (quality : Quality)
deriving DecidableEq

/-- `Filter::filter` for each implementation in `filters.rs`. -/
def runFilter (f : FilterCfg) (item : Item) (inv : Inventory) : Bool :=
  match f with
  | .LimitOverSized max_allowed =>
      match item.quality with
      | .Normal | .Fragile _ _ => true
      | .OverSized _ =>
          let count := ((inv.map (·.2)).filter fun it =>
            match it.quality with | .OverSized _ => true | _ => false).length
          decide (count < max_allowed)
  | .LimitItemQuantity id max_allowed =>
      if item.id ≠ id then true
      else
        let total := (((inv.map (·.2)).filter fun it => decide (it.id = id)).map
          (·.quantity)).sum
        decide (total + item.quantity ≤ max_allowed)
  | .BanQuality quality =>
      if item.quality = quality then false else true

/-- `Manager` from `main.rs`, generic over the allocator state `σ` (the
Rust `Manager<A: AllocStrategy>`); the allocator's `alloc` function is
passed explicitly to the operations that need it. -/
structure Manager (σ : Type) where
  inventory : Inventory
  allocator : σ
  filters : List FilterCfg
  map_ids : List (Nat × Nat)
  map_names : List (String × Nat)
  map_slots : List (Nat × List Slot)
  map_dates : List (Nat × List Slot)

/-- `Manager::new` from `main.rs`. -/
def Manager.new {σ : Type} (allocator : σ) (filters : List FilterCfg) : Manager σ :=
  { inventory := [], allocator := allocator, filters := filters,
    map_ids := [], map_names := [], map_slots := [], map_dates := [] }

/-- `Manager::is_allowed_by_filters` from `main.rs`. -/
def Manager.is_allowed_by_filters {σ : Type} (m : Manager σ) (item : Item) : Bool :=
  m.filters.all fun f => runFilter f item m.inventory

/-- Modify the value stored under `k` in place (the effect of Rust's
`entry(k).and_modify(f)` when the entry exists; entries under other keys
are untouched). -/
def mapModify {κ β : Type} [DecidableEq κ] (m : List (κ × β)) (k : κ)
    (f : β → β) : List (κ × β) :=
  m.map fun p => if p.1 = k then (p.1, f p.2) else p

/-- `*entry(k).or_insert(0) += 1` on a count map. -/
def bumpCount {κ : Type} [DecidableEq κ] (m : List (κ × Nat)) (k : κ) : List (κ × Nat) :=
  match lookupKey m k with
  | some _ => mapModify m k (· + 1)
  | none => m ++ [(k, 1)]

/-- `entry(k).or_insert(vec![]).push(s)` on a HashMap of slot lists. -/
def pushSlot {κ : Type} [DecidableEq κ] (m : List (κ × List Slot)) (k : κ)
    (s : Slot) : List (κ × List Slot) :=
  match lookupKey m k with
  | some _ => mapModify m k (· ++ [s])
  | none => m ++ [(k, [s])]

/-- `entry(k).or_insert(vec![]).push(s)` on the `BTreeMap` of expiry
dates: a fresh key is placed at its sorted position. -/
def pushSlotSorted (m : List (Nat × List Slot)) (k : Nat) (s : Slot) :
    List (Nat × List Slot) :=
  match m with
  | [] => [(k, [s])]
  | (k', v) :: rest =>
      if k = k' then (k', v ++ [s]) :: rest
      else if k < k' then (k, [s]) :: (k', v) :: rest
      else (k', v) :: pushSlotSorted rest k s

/-- `entry(k).and_modify(|count| *count -= 1)` on a count map (the ledger
invariant guarantees the count is positive when this runs). -/
def decCount {κ : Type} [DecidableEq κ] (m : List (κ × Nat)) (k : κ) : List (κ × Nat) :=
  mapModify m k (· - 1)

/-- `entry(k).and_modify(|vec| vec.retain(|x| *x != s))` on a map of slot
lists. -/
def retainSlot {κ : Type} [DecidableEq κ] (m : List (κ × List Slot)) (k : κ)
    (s : Slot) : List (κ × List Slot) :=
  mapModify m k fun l => l.filter fun x => decide (x ≠ s)

/-- `Manager::_update_maps_on_insert` from `main.rs`. -/
def Manager.update_maps_on_insert {σ : Type} (m : Manager σ) (slot : Slot)
    (item : Item) : Manager σ :=
  { m with
    map_ids := bumpCount m.map_ids item.id
    map_names := bumpCount m.map_names item.name
    map_slots := pushSlot m.map_slots item.id slot
    map_dates :=
      match item.quality with
      | .Fragile expiration_date _ => pushSlotSorted m.map_dates expiration_date slot
      | _ => m.map_dates }

/-- `Manager::_insert_item` from `main.rs`: stamp the timestamp, then
`inventory.entry(slot).or_insert(item)` (no overwrite if occupied). -/
def Manager.insert_item_raw {σ : Type} (m : Manager σ) (slot : Slot) (item : Item)
    (now : Nat) : Manager σ :=
  let item := item.update_timestamp now
  match lookupSlot m.inventory slot with
  | some _ => m
  | none => { m with inventory := m.inventory ++ [(slot, item)] }

/-- `Manager::insert_item` from `main.rs`: filter chain, then allocation,
then index update and commit.  The allocator's `alloc` is the explicit
`alloc` argument; `Local::now()` is the explicit `now` argument. -/
def Manager.insert_item {σ : Type} (alloc : σ → Item → Inventory → Option Slot × σ)
    (m : Manager σ) (item : Item) (now : Nat) :
    Except ManagerError Unit × Manager σ :=
  if !m.is_allowed_by_filters item then (.error (.FilteredItem item), m)
  else
    match alloc m.allocator item m.inventory with
    | (none, a') => (.error (.FailedAllocation item), { m with allocator := a' })
    | (some slot, a') =>
        let m := { m with allocator := a' }
        let m := m.update_maps_on_insert slot item
        (.ok (), m.insert_item_raw slot item now)

/-- `Manager::get_item` / `Manager::_get_item` from `main.rs`. -/
def Manager.get_item {σ : Type} (m : Manager σ) (row shelf zone : Nat) : Option Item :=
  lookupSlot m.inventory ⟨row, shelf, zone⟩

/-- `HashMap::remove` on the occupancy map. -/
def removeSlotEntry (inv : Inventory) (slot : Slot) : Inventory :=
  inv.filter fun p => decide (p.1 ≠ slot)

/-- `Manager::_update_maps_on_remove` from `main.rs`: decrement counts,
retain-out the slot, then prune zero counts and empty buckets. -/
def Manager.update_maps_on_remove {σ : Type} (m : Manager σ) (slot : Slot)
    (item : Item) : Manager σ :=
  let m :=
    { m with
      map_ids := decCount m.map_ids item.id
      map_names := decCount m.map_names item.name
      map_slots := retainSlot m.map_slots item.id slot
      map_dates :=
        match item.quality with
        | .Fragile expiration_date _ => retainSlot m.map_dates expiration_date slot
        | _ => m.map_dates }
  { m with
    map_ids := m.map_ids.filter fun p => decide (p.2 ≠ 0)
    map_names := m.map_names.filter fun p => decide (p.2 ≠ 0)
    map_slots := m.map_slots.filter fun p => !p.2.isEmpty
    map_dates := m.map_dates.filter fun p => !p.2.isEmpty }

/-- `Manager::remove_item` / `Manager::_remove_item` from `main.rs`:
remove the occupant at the anchor if any and update the indices;
otherwise do nothing. -/
def Manager.remove_item {σ : Type} (m : Manager σ) (row shelf zone : Nat) : Manager σ :=
  let slot : Slot := ⟨row, shelf, zone⟩
  match lookupSlot m.inventory slot with
  | some item =>
      Manager.update_maps_on_remove
        { m with inventory := removeSlotEntry m.inventory slot } slot item
  | none => m

/-- `Manager::count_id` from `main.rs`. -/
def Manager.count_id {σ : Type} (m : Manager σ) (id : Nat) : Nat :=
  (lookupKey m.map_ids id).getD 0

/-- `Manager::count_name` from `main.rs`. -/
def Manager.count_name {σ : Type} (m : Manager σ) (name : String) : Nat :=
  (lookupKey m.map_names name).getD 0

/-- `Manager::find_id` from `main.rs`. -/
def Manager.find_id {σ : Type} (m : Manager σ) (id : Nat) : Option (List Slot) :=
  lookupKey m.map_slots id

/-- `Manager::find_expired` from `main.rs`: range over dates `<= date`
(the key list is kept sorted, so `filter` visits them in `BTreeMap`
order), flatten the buckets, resolve each anchor through the occupancy
map, drop the (never occurring) misses. -/
def Manager.find_expired {σ : Type} (m : Manager σ) (date : Nat) : List Item :=
  (((m.map_dates.filter fun p => decide (p.1 ≤ date)).flatMap (·.2)).filterMap
    fun s => lookupSlot m.inventory s)

/-- One external call to the ledger: an insertion attempt (with the
wall-clock time the commit would stamp) or a removal. -/
inductive Cmd where
  | ins (item : Item) (now : Nat)
  | rem (row shelf zone : Nat)

/-- Execute one command against the manager (insert errors are reported
to the caller and discarded here, as `main.rs` does). -/
def execCmd {σ : Type} (alloc : σ → Item → Inventory → Option Slot × σ)
    (m : Manager σ) : Cmd → Manager σ
  | .ins item now => (m.insert_item alloc item now).2
  | .rem row shelf zone => m.remove_item row shelf zone

/-- Execute a call sequence from left to right. -/
def execCmds {σ : Type} (alloc : σ → Item → Inventory → Option Slot × σ)
    (m : Manager σ) (cmds : List Cmd) : Manager σ :=
  cmds.foldl (execCmd alloc) m

/-- States reachable from a fresh `Manager` by `insert_item`/`remove_item`
calls. -/
def Reachable {σ : Type} (alloc : σ → Item → Inventory → Option Slot × σ)
    (a0 : σ) (filters : List FilterCfg) (m : Manager σ) : Prop :=
  ∃ cmds : List Cmd, m = execCmds alloc (Manager.new a0 filters) cmds

theorem mem_rustRange {a b z : Nat} : z ∈ rustRange a b ↔ a ≤ z ∧ z < b := by
  unfold rustRange
  rw [List.mem_range'_1]
  omega

/-- The total quantity of occupants sharing the id `id` (the claim-side
reading of the sum computed by `LimitItemQuantity::filter`). -/
def idQuantitySum (inv : Inventory) (id : Nat) : Nat :=
  ((inv.filter fun p => decide (p.2.id = id)).map fun p => p.2.quantity).sum

/-- **C4.** The availability predicate rejects exactly when the footprint
overflows the grid, or some footprint zone is an occupied anchor, or an
earlier occupant's trailing span reaches the candidate anchor; otherwise
it accepts. -/
theorem is_slot_available_false_iff (slot : Slot) (item : Item) (inv : Inventory) :
    is_slot_available slot item inv = false ↔
      (MAX_INVENTORY_SIZE < slot.zone + get_item_size item ∨
       (∃ z, slot.zone ≤ z ∧ z < slot.zone + get_item_size item ∧
          (lookupSlot inv ⟨slot.row, slot.shelf, z⟩).isSome = true) ∨
       (∃ z it, z < slot.zone ∧ lookupSlot inv ⟨slot.row, slot.shelf, z⟩ = some it ∧
          slot.zone < z + get_item_size it)) := by
  simp only [is_slot_available]
  constructor
  · intro hfalse
    split_ifs at hfalse with h1 h2
    · exact Or.inl h1
    · rw [List.any_eq_true] at h2
      obtain ⟨z, hz, hocc⟩ := h2
      rw [mem_rustRange] at hz
      exact Or.inr (Or.inl ⟨z, hz.1, hz.2, hocc⟩)
    · rw [Bool.not_eq_false'] at hfalse
      rw [List.any_eq_true] at hfalse
      obtain ⟨z, hz, hcond⟩ := hfalse
      rw [mem_rustRange] at hz
      refine Or.inr (Or.inr ?_)
      cases hl : lookupSlot inv ⟨slot.row, slot.shelf, z⟩ with
      | none => simp [hl] at hcond
      | some it =>
          simp only [hl, decide_eq_true_eq] at hcond
          exact ⟨z, it, hz.2, hl, by omega⟩
  · intro hdisj
    split_ifs with h1 h2
    · rfl
    · rfl
    · rcases hdisj with h | h | h
      · exact absurd h h1
      · obtain ⟨z, hz1, hz2, hocc⟩ := h
        exact absurd (List.any_eq_true.mpr ⟨z, mem_rustRange.mpr ⟨hz1, hz2⟩, hocc⟩) h2
      · obtain ⟨z, it, hlt, hl, hreach⟩ := h
        rw [Bool.not_eq_false']
        rw [List.any_eq_true]
        refine ⟨z, mem_rustRange.mpr ⟨Nat.zero_le z, hlt⟩, ?_⟩
        simp only [hl, decide_eq_true_eq]
        omega

/-- Witness for `is_slot_available_false_iff` (the claim's "otherwise
returns true" direction, evaluated on a concrete blocked candidate). -/
theorem is_slot_available_false_iff_witness :
    is_slot_available ⟨0, 0, 1⟩ (Item.new 1 "B" 1 .Normal)
        [(⟨0, 0, 0⟩, Item.new 0 "A" 1 (.OverSized 2))] = false :=
  (is_slot_available_false_iff ⟨0, 0, 1⟩ (Item.new 1 "B" 1 .Normal)
      [(⟨0, 0, 0⟩, Item.new 0 "A" 1 (.OverSized 2))]).mpr
    (Or.inr (Or.inr ⟨0, Item.new 0 "A" 1 (.OverSized 2), by decide, by decide, by decide⟩))

/-- **C8.** `LimitItemQuantity::filter` always accepts items of other
ids, and accepts a matching id exactly when the occupants' total
quantity plus the candidate's stays within the configured maximum. -/
theorem limit_item_quantity_filter (id maxq : Nat) (item : Item) (inv : Inventory) :
    (item.id ≠ id → runFilter (.LimitItemQuantity id maxq) item inv = true) ∧
      (item.id = id →
        (runFilter (.LimitItemQuantity id maxq) item inv = true ↔
          idQuantitySum inv id + item.quantity ≤ maxq)) := by
  constructor
  · intro hne
    simp [runFilter, hne]
  · intro heq
    have hmapfilter :
        (inv.map (·.2)).filter (fun it => decide (it.id = id)) =
          (inv.filter fun p => decide (p.2.id = id)).map (·.2) := by
      induction inv with
      | nil => rfl
      | cons hd tl ih =>
          by_cases h : hd.2.id = id <;> simp [List.filter_cons, h, ih]
    simp only [runFilter, idQuantitySum]
    rw [if_neg (by simp [heq])]
    rw [hmapfilter]
    simp only [List.map_map, decide_eq_true_eq]
    exact Iff.rfl

/-- Witness for `limit_item_quantity_filter` at a concrete inventory:
two occupants of id 2 with quantities 10 and 30, candidate quantity 10,
maximum 50. -/
theorem limit_item_quantity_filter_witness :
    runFilter (.LimitItemQuantity 2 50) (Item.new 2 "C" 10 .Normal)
        [(⟨0, 0, 0⟩, Item.new 2 "C" 10 .Normal),
         (⟨0, 0, 1⟩, Item.new 2 "C" 30 .Normal),
         (⟨0, 0, 2⟩, Item.new 7 "D" 999 .Normal)] = true :=
  ((limit_item_quantity_filter 2 50 (Item.new 2 "C" 10 .Normal)
      [(⟨0, 0, 0⟩, Item.new 2 "C" 10 .Normal),
       (⟨0, 0, 1⟩, Item.new 2 "C" 30 .Normal),
       (⟨0, 0, 2⟩, Item.new 7 "D" 999 .Normal)]).2 rfl).mpr (by decide)

/-- **C5.** A failed `insert_item` (filter rejection or allocation
failure) leaves the occupancy map and all four indices exactly as
before the call. -/
theorem insert_item_error_frame {σ : Type}
    (alloc : σ → Item → Inventory → Option Slot × σ) (m : Manager σ)
    (item : Item) (now : Nat) (e : ManagerError) (m' : Manager σ)
    (h : m.insert_item alloc item now = (.error e, m')) :
    m'.inventory = m.inventory ∧ m'.map_ids = m.map_ids ∧
      m'.map_names = m.map_names ∧ m'.map_slots = m.map_slots ∧
      m'.map_dates = m.map_dates ∧ m'.filters = m.filters := by
  unfold Manager.insert_item at h
  split at h
  · simp only [Prod.mk.injEq] at h
    rw [← h.2]
    exact ⟨rfl, rfl, rfl, rfl, rfl, rfl⟩
  · split at h
    · simp only [Prod.mk.injEq] at h
      rw [← h.2]
      exact ⟨rfl, rfl, rfl, rfl, rfl, rfl⟩
    · simp only [Prod.mk.injEq] at h
      exact absurd h.1 (by simp)

/-- Witness for `insert_item_error_frame`: a `BanQuality` filter rejects
the insert and every ledger component is unchanged. -/
theorem insert_item_error_frame_witness :
    ((Manager.new (⟨none⟩ : RoundRobinAllocator) [.BanQuality .Normal]).insert_item
        RoundRobinAllocator.alloc (Item.new 0 "A" 1 .Normal) 5).2.inventory =
      (Manager.new (⟨none⟩ : RoundRobinAllocator) [.BanQuality .Normal]).inventory :=
  (insert_item_error_frame RoundRobinAllocator.alloc
    (Manager.new (⟨none⟩ : RoundRobinAllocator) [.BanQuality .Normal])
    (Item.new 0 "A" 1 .Normal) 5 (.FilteredItem (Item.new 0 "A" 1 .Normal)) _ rfl).1

/-- **C7.** `remove_item` at a coordinate holding no occupant returns the
manager unchanged (occupancy map and all four indices) and signals no
error (its return type has no error component: the `None` branch of
`_remove_item` is a silent no-op). -/
theorem remove_item_absent_noop {σ : Type} (m : Manager σ) (row shelf zone : Nat)
    (h : lookupSlot m.inventory ⟨row, shelf, zone⟩ = none) :
    m.remove_item row shelf zone = m := by
  unfold Manager.remove_item
  simp [h]

/-- Witness for `remove_item_absent_noop` on a concrete one-item ledger. -/
theorem remove_item_absent_noop_witness :
    (execCmds RoundRobinAllocator.alloc
        (Manager.new (⟨none⟩ : RoundRobinAllocator) [])
        [.ins (Item.new 0 "A" 1 .Normal) 7]).remove_item 2 2 2 =
      execCmds RoundRobinAllocator.alloc
        (Manager.new (⟨none⟩ : RoundRobinAllocator) [])
        [.ins (Item.new 0 "A" 1 .Normal) 7] :=
  remove_item_absent_noop _ 2 2 2 (by decide)

/-- Strict lexicographic order on coordinates: row, then shelf, then
zone. -/
def slotLexLt (a b : Slot) : Prop :=
  a.row < b.row ∨ (a.row = b.row ∧
    (a.shelf < b.shelf ∨ (a.shelf = b.shelf ∧ a.zone < b.zone)))

/-- Lexicographic order (reflexive) on coordinates. -/
def slotLexLe (a b : Slot) : Prop :=
  a.row < b.row ∨ (a.row = b.row ∧
    (a.shelf < b.shelf ∨ (a.shelf = b.shelf ∧ a.zone ≤ b.zone)))

instance (a b : Slot) : Decidable (slotLexLt a b) := by
  unfold slotLexLt; infer_instance

instance (a b : Slot) : Decidable (slotLexLe a b) := by
  unfold slotLexLe; infer_instance

theorem slotLexLe_of_componentwise {a b : Slot} (h1 : a.row ≤ b.row)
    (h2 : a.shelf ≤ b.shelf) (h3 : a.zone ≤ b.zone) : slotLexLe a b := by
  unfold slotLexLe; omega

theorem mem_rrCandidates {start c : Slot} :
    c ∈ rrCandidates start ↔
      start.row ≤ c.row ∧ c.row < MAX_INVENTORY_SIZE ∧
      start.shelf ≤ c.shelf ∧ c.shelf < MAX_INVENTORY_SIZE ∧
      start.zone ≤ c.zone ∧ c.zone < MAX_INVENTORY_SIZE := by
  unfold rrCandidates
  simp only [List.mem_flatMap, List.mem_map, mem_rustRange]
  constructor
  · rintro ⟨r, hr, s, hs, z, hz, rfl⟩
    exact ⟨hr.1, hr.2, hs.1, hs.2, hz.1, hz.2⟩
  · rintro ⟨h1, h2, h3, h4, h5, h6⟩
    exact ⟨c.row, ⟨h1, h2⟩, c.shelf, ⟨h3, h4⟩, c.zone, ⟨h5, h6⟩, rfl⟩

theorem pairwise_flatMap_of {α β : Type} {R : β → β → Prop} {l : List α}
    {f : α → List β} (S : α → α → Prop) (hl : List.Pairwise S l)
    (hin : ∀ a ∈ l, List.Pairwise R (f a))
    (hcross : ∀ a b, S a b → ∀ x ∈ f a, ∀ y ∈ f b, R x y) :
    List.Pairwise R (l.flatMap f) := by
  induction l with
  | nil => simp
  | cons hd tl ih =>
      rw [List.pairwise_cons] at hl
      rw [List.flatMap_cons, List.pairwise_append]
      refine ⟨hin hd (by simp), ih hl.2 (fun a ha => hin a (by simp [ha])), ?_⟩
      intro x hx y hy
      rw [List.mem_flatMap] at hy
      obtain ⟨b, hb, hyb⟩ := hy
      exact hcross hd b (hl.1 b hb) x hx y hyb

theorem rrCandidates_sorted (start : Slot) :
    List.Pairwise slotLexLt (rrCandidates start) := by
  unfold rrCandidates
  apply pairwise_flatMap_of (· < ·)
  · exact List.pairwise_lt_range' _ _
  · intro r _
    apply pairwise_flatMap_of (· < ·)
    · exact List.pairwise_lt_range' _ _
    · intro s _
      rw [List.pairwise_map]
      apply List.Pairwise.imp ?_ (List.pairwise_lt_range' _ _)
      intro z1 z2 hz
      exact Or.inr ⟨rfl, Or.inr ⟨rfl, hz⟩⟩
    · intro s1 s2 hs x hx y hy
      rw [List.mem_map] at hx hy
      obtain ⟨z1, _, rfl⟩ := hx
      obtain ⟨z2, _, rfl⟩ := hy
      exact Or.inr ⟨rfl, Or.inl hs⟩
  · intro r1 r2 hr x hx y hy
    rw [List.mem_flatMap] at hx hy
    obtain ⟨s1, _, hx⟩ := hx
    obtain ⟨s2, _, hy⟩ := hy
    rw [List.mem_map] at hx hy
    obtain ⟨z1, _, rfl⟩ := hx
    obtain ⟨z2, _, rfl⟩ := hy
    exact Or.inl hr

/-- **C6.** Consecutive successful Round-Robin allocations never move
lexicographically backwards, and a failed search resets the cursor to
`none`, making the next search start at the origin. -/
theorem round_robin_progress :
    (∀ (a : RoundRobinAllocator) (item1 : Item) (inv1 : Inventory)
        (c1 : Slot) (a1 : RoundRobinAllocator) (item2 : Item)
        (inv2 : Inventory) (c2 : Slot) (a2 : RoundRobinAllocator),
        a.alloc item1 inv1 = (some c1, a1) →
        a1.alloc item2 inv2 = (some c2, a2) → slotLexLe c1 c2) ∧
      (∀ (a : RoundRobinAllocator) (item : Item) (inv : Inventory)
        (a' : RoundRobinAllocator),
        a.alloc item inv = (none, a') →
        a'.prev_alloc = none ∧ a'.get_start_pos = ⟨0, 0, 0⟩) := by
  constructor
  · intro a item1 inv1 c1 a1 item2 inv2 c2 a2 h1 h2
    unfold RoundRobinAllocator.alloc at h1 h2
    split at h1
    case h_2 => simp at h1
    case h_1 s1 hf1 =>
      simp only [Prod.mk.injEq, Option.some.injEq] at h1
      obtain ⟨rfl, rfl⟩ := h1
      split at h2
      case h_2 => simp at h2
      case h_1 s2 hf2 =>
        simp only [Prod.mk.injEq, Option.some.injEq] at h2
        obtain ⟨rfl, rfl⟩ := h2
        have hmem := List.mem_of_find?_eq_some hf2
        rw [mem_rrCandidates] at hmem
        exact slotLexLe_of_componentwise hmem.1 hmem.2.2.1 hmem.2.2.2.2.1
  · intro a item inv a' h
    unfold RoundRobinAllocator.alloc at h
    split at h
    case h_1 => simp at h
    case h_2 =>
      simp only [Prod.mk.injEq] at h
      rw [← h.2]
      exact ⟨rfl, rfl⟩

/-- Witness for `round_robin_progress`: two successful allocations on a
fresh allocator land at (0,0,0) then (0,0,1), in lexicographic order. -/
theorem round_robin_progress_witness :
    slotLexLe ⟨0, 0, 0⟩ ⟨0, 0, 1⟩ :=
  round_robin_progress.1 ⟨none⟩ (Item.new 0 "A" 1 .Normal) [] ⟨0, 0, 0⟩
    ⟨some ⟨0, 0, 0⟩⟩ (Item.new 1 "B" 1 .Normal)
    [(⟨0, 0, 0⟩, Item.new 0 "A" 1 .Normal)] ⟨0, 0, 1⟩ ⟨some ⟨0, 0, 1⟩⟩
    (by decide) (by decide)

/-- Concrete occupancy refuting C2 as stated: every coordinate with
shelf ≥ 1 and zone ≥ 1 is occupied by a Normal item. -/
def rrScanInv : Inventory :=
  [(⟨0, 1, 1⟩, Item.new 0 "A" 1 .Normal), (⟨0, 1, 2⟩, Item.new 1 "A" 1 .Normal),
   (⟨0, 2, 1⟩, Item.new 2 "A" 1 .Normal), (⟨0, 2, 2⟩, Item.new 3 "A" 1 .Normal),
   (⟨1, 1, 1⟩, Item.new 4 "A" 1 .Normal), (⟨1, 1, 2⟩, Item.new 5 "A" 1 .Normal),
   (⟨1, 2, 1⟩, Item.new 6 "A" 1 .Normal), (⟨1, 2, 2⟩, Item.new 7 "A" 1 .Normal),
   (⟨2, 1, 1⟩, Item.new 8 "A" 1 .Normal), (⟨2, 1, 2⟩, Item.new 9 "A" 1 .Normal),
   (⟨2, 2, 1⟩, Item.new 10 "A" 1 .Normal), (⟨2, 2, 2⟩, Item.new 11 "A" 1 .Normal)]

/-- **C2 counterexample.** With the cursor at (0,1,1) and `rrScanInv`
occupied, the call fails, yet (0,2,0) is lexicographically greater than
the starting anchor, available, category-acceptable, and never visited:
the scan is the product of the three suffix ranges, not the
lexicographic tail. -/
theorem rr_scan_lex_tail_counterexample :
    (RoundRobinAllocator.alloc ⟨some ⟨0, 1, 1⟩⟩ (Item.new 12 "B" 1 .Normal)
        rrScanInv).1 = none ∧
      slotLexLe ⟨0, 1, 1⟩ ⟨0, 2, 0⟩ ∧
      is_slot_available ⟨0, 2, 0⟩ (Item.new 12 "B" 1 .Normal) rrScanInv = true ∧
      categoryOk (Item.new 12 "B" 1 .Normal) ⟨0, 2, 0⟩ = true ∧
      ⟨0, 2, 0⟩ ∉ rrCandidates ⟨0, 1, 1⟩ := by decide

/-- **C2 (amended).** A Round-Robin call with a recorded anchor scans, in
strictly increasing lexicographic order, exactly the product of the
suffix ranges `[anchor.row, N) × [anchor.shelf, N) × [anchor.zone, N)`;
every coordinate componentwise ≥ the anchor (and inside the grid) is
visited as a candidate before the call returns failure. -/
theorem rr_scan_forward_product :
    (∀ start : Slot, List.Pairwise slotLexLt (rrCandidates start)) ∧
      (∀ start c : Slot,
        c ∈ rrCandidates start ↔
          start.row ≤ c.row ∧ c.row < MAX_INVENTORY_SIZE ∧
          start.shelf ≤ c.shelf ∧ c.shelf < MAX_INVENTORY_SIZE ∧
          start.zone ≤ c.zone ∧ c.zone < MAX_INVENTORY_SIZE) ∧
      (∀ (p : Slot) (item : Item) (inv : Inventory) (a' : RoundRobinAllocator),
        RoundRobinAllocator.alloc ⟨some p⟩ item inv = (none, a') →
        ∀ c : Slot, p.row ≤ c.row → c.row < MAX_INVENTORY_SIZE →
          p.shelf ≤ c.shelf → c.shelf < MAX_INVENTORY_SIZE →
          p.zone ≤ c.zone → c.zone < MAX_INVENTORY_SIZE →
          ¬(is_slot_available c item inv = true ∧ categoryOk item c = true)) := by
  refine ⟨rrCandidates_sorted, fun start c => mem_rrCandidates, ?_⟩
  intro p item inv a' h c hc1 hc2 hc3 hc4 hc5 hc6 hcontra
  unfold RoundRobinAllocator.alloc at h
  split at h
  case h_1 => simp at h
  case h_2 hf =>
    rw [List.find?_eq_none] at hf
    have hmem : c ∈ rrCandidates (RoundRobinAllocator.mk (some p)).get_start_pos := by
      rw [show (RoundRobinAllocator.mk (some p)).get_start_pos = p from rfl]
      exact mem_rrCandidates.mpr ⟨hc1, hc2, hc3, hc4, hc5, hc6⟩
    have := hf c hmem
    rw [Bool.and_eq_true] at this
    exact this ⟨hcontra.1, hcontra.2⟩

/-- Witness for `rr_scan_forward_product`: a failed call from cursor
(2,2,2) with that slot occupied implies the only in-range coordinate is
not an acceptable candidate. -/
theorem rr_scan_forward_product_witness :
    ¬(is_slot_available ⟨2, 2, 2⟩ (Item.new 1 "B" 1 .Normal)
          [(⟨2, 2, 2⟩, Item.new 0 "A" 1 .Normal)] = true ∧
        categoryOk (Item.new 1 "B" 1 .Normal) ⟨2, 2, 2⟩ = true) :=
  rr_scan_forward_product.2.2 ⟨2, 2, 2⟩ (Item.new 1 "B" 1 .Normal)
    [(⟨2, 2, 2⟩, Item.new 0 "A" 1 .Normal)] ⟨none⟩ (by decide) ⟨2, 2, 2⟩
    (by decide) (by decide) (by decide) (by decide) (by decide) (by decide)

theorem max_inventory_size_eq : MAX_INVENTORY_SIZE = 3 := rfl

theorem mem_uniqueAux {α : Type} [DecidableEq α] {seen l : List α} {x : α} :
    x ∈ uniqueAux seen l ↔ x ∈ l ∧ x ∉ seen := by
  induction l generalizing seen with
  | nil => simp [uniqueAux]
  | cons y ys ih =>
      unfold uniqueAux
      by_cases hy : y ∈ seen
      · rw [if_pos hy, ih]
        by_cases hxy : x = y
        · subst hxy; simp [hy]
        · rw [List.mem_cons]; tauto
      · rw [if_neg hy]
        rw [List.mem_cons, ih, List.mem_cons, List.mem_cons]
        by_cases hxy : x = y
        · subst hxy; tauto
        · tauto

theorem mem_slots_by_distance {d : Nat} {s : Slot} :
    s ∈ GreedyAllocator.slots_by_distance d ↔
      s.distance = d ∧ s.row < MAX_INVENTORY_SIZE ∧
        s.shelf < MAX_INVENTORY_SIZE ∧ s.zone < MAX_INVENTORY_SIZE := by
  unfold GreedyAllocator.slots_by_distance uniqueList
  simp only [List.mem_map, List.mem_filter, mem_uniqueAux, List.mem_flatMap,
    List.mem_range, List.not_mem_nil, not_false_iff, and_true,
    Bool.and_eq_true, decide_eq_true_eq]
  constructor
  · rintro ⟨p, ⟨⟨i, hi, j, hj, hp⟩, hb1, hb2⟩, rfl⟩
    have hsum : p.1 + p.2.1 + p.2.2 = d := by
      unfold perms3 at hp
      simp only [List.mem_cons, List.not_mem_nil, or_false] at hp
      rcases hp with rfl | rfl | rfl | rfl | rfl | rfl <;> simp <;> omega
    exact ⟨hsum, hb1.1, hb1.2, hb2⟩
  · rintro ⟨hd, h1, h2, h3⟩
    refine ⟨(s.row, s.shelf, s.zone), ⟨⟨s.row, ?_, s.shelf, ?_, ?_⟩, ⟨h1, h2⟩, h3⟩, rfl⟩
    · unfold Slot.distance at hd; omega
    · unfold Slot.distance at hd; omega
    · have hz : d - s.row - s.shelf = s.zone := by
        unfold Slot.distance at hd; omega
      unfold perms3
      rw [hz]
      exact List.mem_cons_self _ _

theorem mem_gCandidates {s : Slot} :
    s ∈ gCandidates ↔
      s.row < MAX_INVENTORY_SIZE ∧ s.shelf < MAX_INVENTORY_SIZE ∧
        s.zone < MAX_INVENTORY_SIZE := by
  unfold gCandidates
  simp only [List.mem_flatMap, List.mem_range]
  constructor
  · rintro ⟨k, hk, hs⟩
    exact (mem_slots_by_distance.mp hs).2
  · rintro ⟨h1, h2, h3⟩
    refine ⟨s.distance, ?_, mem_slots_by_distance.mpr ⟨rfl, h1, h2, h3⟩⟩
    unfold Slot.distance
    rw [max_inventory_size_eq] at h1 h2 h3 ⊢
    omega

/-- **C3.** Greedy minimality: a returned anchor is available, passes the
category constraint, and no grid coordinate of strictly smaller Manhattan
distance does both; and if some grid coordinate is available and passes
the category constraint, the allocation succeeds. -/
theorem greedy_minimal :
    (∀ (g : GreedyAllocator) (item : Item) (inv : Inventory) (s : Slot),
        (g.alloc item inv).1 = some s →
        is_slot_available s item inv = true ∧ categoryOk item s = true ∧
          ∀ s' : Slot, s'.row < MAX_INVENTORY_SIZE →
            s'.shelf < MAX_INVENTORY_SIZE → s'.zone < MAX_INVENTORY_SIZE →
            s'.distance < s.distance →
            ¬(is_slot_available s' item inv = true ∧ categoryOk item s' = true)) ∧
      (∀ (g : GreedyAllocator) (item : Item) (inv : Inventory) (s' : Slot),
        s'.row < MAX_INVENTORY_SIZE → s'.shelf < MAX_INVENTORY_SIZE →
        s'.zone < MAX_INVENTORY_SIZE → is_slot_available s' item inv = true →
        categoryOk item s' = true → ∃ s, (g.alloc item inv).1 = some s) := by
  constructor
  · intro g item inv s h
    unfold GreedyAllocator.alloc at h
    have hpred := List.find?_some h
    rw [Bool.and_eq_true] at hpred
    refine ⟨hpred.1, hpred.2, ?_⟩
    intro s' hb1 hb2 hb3 hdist hcontra
    have hd'le : s'.distance + 1 + (6 - s'.distance) = 3 * (MAX_INVENTORY_SIZE - 1) + 1 := by
      unfold Slot.distance
      rw [max_inventory_size_eq] at hb1 hb2 hb3 ⊢
      omega
    have hsplit : gCandidates =
        ((List.range (s'.distance + 1)).flatMap GreedyAllocator.slots_by_distance) ++
          (((List.range (6 - s'.distance)).map fun x => s'.distance + 1 + x).flatMap
            GreedyAllocator.slots_by_distance) := by
      unfold gCandidates
      rw [← hd'le, List.range_add, List.flatMap_append]
    rw [hsplit, List.find?_append] at h
    cases hA : List.find?
        (fun slot => is_slot_available slot item inv && categoryOk item slot)
        ((List.range (s'.distance + 1)).flatMap GreedyAllocator.slots_by_distance) with
    | some t =>
        rw [hA] at h
        have ht : t = s := by simpa using h
        subst ht
        have hmem := List.mem_of_find?_eq_some hA
        rw [List.mem_flatMap] at hmem
        obtain ⟨k, hk, hs⟩ := hmem
        rw [List.mem_range] at hk
        have := (mem_slots_by_distance.mp hs).1
        omega
    | none =>
        rw [List.find?_eq_none] at hA
        have hmemA : s' ∈ (List.range (s'.distance + 1)).flatMap
            GreedyAllocator.slots_by_distance := by
          rw [List.mem_flatMap]
          exact ⟨s'.distance, by simp,
            mem_slots_by_distance.mpr ⟨rfl, hb1, hb2, hb3⟩⟩
        have := hA s' hmemA
        rw [Bool.and_eq_true] at this
        exact this ⟨hcontra.1, hcontra.2⟩
  · intro g item inv s' hb1 hb2 hb3 havail hcat
    unfold GreedyAllocator.alloc
    have hmem : s' ∈ gCandidates := mem_gCandidates.mpr ⟨hb1, hb2, hb3⟩
    have hsome : (gCandidates.find? fun slot =>
        is_slot_available slot item inv && categoryOk item slot).isSome := by
      rw [List.find?_isSome]
      exact ⟨s', hmem, by rw [Bool.and_eq_true]; exact ⟨havail, hcat⟩⟩
    obtain ⟨s, hs⟩ := Option.isSome_iff_exists.mp hsome
    exact ⟨s, hs⟩

/-- Witness for `greedy_minimal`: on an empty ledger a Normal item is
allocatable (the origin is available), so `alloc` returns `some`. -/
theorem greedy_minimal_witness :
    ∃ s, ((⟨⟩ : GreedyAllocator).alloc (Item.new 0 "A" 1 .Normal) []).1 = some s :=
  greedy_minimal.2 ⟨⟩ (Item.new 0 "A" 1 .Normal) [] ⟨0, 0, 0⟩ (by decide)
    (by decide) (by decide) (by decide) (by decide)

theorem lookupKey_nil {κ β : Type} [DecidableEq κ] (k : κ) :
    lookupKey ([] : List (κ × β)) k = none := rfl

theorem lookupKey_cons {κ β : Type} [DecidableEq κ] (a : κ) (b : β)
    (tl : List (κ × β)) (k : κ) :
    lookupKey ((a, b) :: tl) k = if a = k then some b else lookupKey tl k := rfl

theorem lookupSlot_cons (a : Slot) (b : Item) (tl : Inventory) (s : Slot) :
    lookupSlot ((a, b) :: tl) s = if a = s then some b else lookupSlot tl s := rfl

theorem lookupSlot_eq_lookupKey (inv : Inventory) (s : Slot) :
    lookupSlot inv s = lookupKey inv s := by
  induction inv with
  | nil => rfl
  | cons hd tl ih => obtain ⟨a, b⟩ := hd; rw [lookupSlot_cons, lookupKey_cons, ih]

theorem lookupKey_append {κ β : Type} [DecidableEq κ] (m1 m2 : List (κ × β)) (k : κ) :
    lookupKey (m1 ++ m2) k = (lookupKey m1 k).or (lookupKey m2 k) := by
  induction m1 with
  | nil => rfl
  | cons hd tl ih =>
      obtain ⟨a, b⟩ := hd
      rw [List.cons_append, lookupKey_cons, lookupKey_cons]
      by_cases h : a = k
      · rw [if_pos h, if_pos h]; rfl
      · rw [if_neg h, if_neg h, ih]

theorem lookupKey_eq_none_iff {κ β : Type} [DecidableEq κ] {m : List (κ × β)} {k : κ} :
    lookupKey m k = none ↔ k ∉ m.map Prod.fst := by
  induction m with
  | nil => simp [lookupKey_nil]
  | cons hd tl ih =>
      obtain ⟨a, b⟩ := hd
      rw [lookupKey_cons, List.map_cons, List.mem_cons]
      by_cases h : a = k
      · subst h; simp
      · rw [if_neg h, ih]
        have hne : ¬k = a := fun hh => h hh.symm
        tauto

theorem lookupKey_mapModify {κ β : Type} [DecidableEq κ] (m : List (κ × β)) (k : κ)
    (f : β → β) (k' : κ) :
    lookupKey (mapModify m k f) k' =
      if k' = k then (lookupKey m k').map f else lookupKey m k' := by
  induction m with
  | nil =>
      unfold mapModify
      rw [List.map_nil]
      by_cases h : k' = k
      · rw [if_pos h]; rfl
      · rw [if_neg h]
  | cons hd tl ih =>
      obtain ⟨a, b⟩ := hd
      unfold mapModify at ih ⊢
      rw [List.map_cons]
      dsimp only
      by_cases h1 : a = k
      · rw [if_pos h1]
        by_cases h2 : a = k'
        · have hk : k' = k := h2.symm.trans h1
          rw [if_pos hk, lookupKey_cons, lookupKey_cons, if_pos h2, if_pos h2]
          rfl
        · by_cases h3 : k' = k
          · rw [if_pos h3, lookupKey_cons, lookupKey_cons, if_neg h2, if_neg h2, ih,
              if_pos h3]
          · rw [if_neg h3, lookupKey_cons, lookupKey_cons, if_neg h2, if_neg h2, ih,
              if_neg h3]
      · rw [if_neg h1]
        by_cases h2 : a = k'
        · have hk : ¬k' = k := fun hh => h1 (h2.trans hh)
          rw [if_neg hk, lookupKey_cons, lookupKey_cons, if_pos h2, if_pos h2]
        · by_cases h3 : k' = k
          · rw [if_pos h3, lookupKey_cons, lookupKey_cons, if_neg h2, if_neg h2, ih,
              if_pos h3]
          · rw [if_neg h3, lookupKey_cons, lookupKey_cons, if_neg h2, if_neg h2, ih,
              if_neg h3]

theorem keys_mapModify {κ β : Type} [DecidableEq κ] (m : List (κ × β)) (k : κ)
    (f : β → β) :
    (mapModify m k f).map Prod.fst = m.map Prod.fst := by
  unfold mapModify
  rw [List.map_map]
  apply List.map_congr_left
  intro p _
  by_cases h : p.1 = k <;> simp [h]

theorem lookupKey_bumpCount {κ : Type} [DecidableEq κ] (m : List (κ × Nat)) (k k' : κ) :
    lookupKey (bumpCount m k) k' =
      if k' = k then some ((lookupKey m k).getD 0 + 1) else lookupKey m k' := by
  cases hm : lookupKey m k with
  | some c =>
      have hrw : bumpCount m k = mapModify m k (· + 1) := by
        unfold bumpCount; rw [hm]
      rw [hrw, lookupKey_mapModify]
      by_cases h : k' = k
      · subst h; rw [if_pos rfl, if_pos rfl, hm]; rfl
      · rw [if_neg h, if_neg h]
  | none =>
      have hrw : bumpCount m k = m ++ [(k, 1)] := by
        unfold bumpCount; rw [hm]
      rw [hrw, lookupKey_append]
      by_cases h : k' = k
      · subst h
        rw [hm, lookupKey_cons, if_pos rfl, if_pos rfl]
        rfl
      · rw [if_neg h, lookupKey_cons, if_neg (fun hh => h hh.symm), lookupKey_nil,
          Option.or_none]

theorem lookupKey_pushSlot {κ : Type} [DecidableEq κ] (m : List (κ × List Slot))
    (k : κ) (s : Slot) (k' : κ) :
    lookupKey (pushSlot m k s) k' =
      if k' = k then some ((lookupKey m k).getD [] ++ [s]) else lookupKey m k' := by
  cases hm : lookupKey m k with
  | some l =>
      have hrw : pushSlot m k s = mapModify m k (· ++ [s]) := by
        unfold pushSlot; rw [hm]
      rw [hrw, lookupKey_mapModify]
      by_cases h : k' = k
      · subst h; rw [if_pos rfl, if_pos rfl, hm]; rfl
      · rw [if_neg h, if_neg h]
  | none =>
      have hrw : pushSlot m k s = m ++ [(k, [s])] := by
        unfold pushSlot; rw [hm]
      rw [hrw, lookupKey_append]
      by_cases h : k' = k
      · subst h
        rw [hm, lookupKey_cons, if_pos rfl, if_pos rfl]
        rfl
      · rw [if_neg h, lookupKey_cons, if_neg (fun hh => h hh.symm), lookupKey_nil,
          Option.or_none]

theorem lookupKey_decCount {κ : Type} [DecidableEq κ] (m : List (κ × Nat)) (k k' : κ) :
    lookupKey (decCount m k) k' =
      if k' = k then (lookupKey m k').map (· - 1) else lookupKey m k' :=
  lookupKey_mapModify m k (· - 1) k'

theorem lookupKey_retainSlot {κ : Type} [DecidableEq κ] (m : List (κ × List Slot))
    (k : κ) (s : Slot) (k' : κ) :
    lookupKey (retainSlot m k s) k' =
      if k' = k then (lookupKey m k').map (fun l => l.filter fun x => decide (x ≠ s))
      else lookupKey m k' :=
  lookupKey_mapModify m k (fun l => l.filter fun x => decide (x ≠ s)) k'

theorem keys_bumpCount_cases {κ : Type} [DecidableEq κ] (m : List (κ × Nat)) (k : κ) :
    (bumpCount m k).map Prod.fst = m.map Prod.fst ∨
      (lookupKey m k = none ∧
        (bumpCount m k).map Prod.fst = m.map Prod.fst ++ [k]) := by
  cases hm : lookupKey m k with
  | some c =>
      have hrw : bumpCount m k = mapModify m k (· + 1) := by
        unfold bumpCount; rw [hm]
      exact Or.inl (hrw ▸ keys_mapModify m k _)
  | none =>
      have hrw : bumpCount m k = m ++ [(k, 1)] := by
        unfold bumpCount; rw [hm]
      exact Or.inr ⟨rfl, by rw [hrw]; simp⟩

theorem keys_pushSlot_cases {κ : Type} [DecidableEq κ] (m : List (κ × List Slot))
    (k : κ) (s : Slot) :
    (pushSlot m k s).map Prod.fst = m.map Prod.fst ∨
      (lookupKey m k = none ∧
        (pushSlot m k s).map Prod.fst = m.map Prod.fst ++ [k]) := by
  cases hm : lookupKey m k with
  | some c =>
      have hrw : pushSlot m k s = mapModify m k (· ++ [s]) := by
        unfold pushSlot; rw [hm]
      exact Or.inl (hrw ▸ keys_mapModify m k _)
  | none =>
      have hrw : pushSlot m k s = m ++ [(k, [s])] := by
        unfold pushSlot; rw [hm]
      exact Or.inr ⟨rfl, by rw [hrw]; simp⟩

theorem keys_decCount {κ : Type} [DecidableEq κ] (m : List (κ × Nat)) (k : κ) :
    (decCount m k).map Prod.fst = m.map Prod.fst :=
  keys_mapModify m k (· - 1)

theorem keys_retainSlot {κ : Type} [DecidableEq κ] (m : List (κ × List Slot))
    (k : κ) (s : Slot) :
    (retainSlot m k s).map Prod.fst = m.map Prod.fst :=
  keys_mapModify m k _

theorem mem_keys_pushSlotSorted {m : List (Nat × List Slot)} {k : Nat} {s : Slot}
    {x : Nat} :
    x ∈ (pushSlotSorted m k s).map Prod.fst ↔ x = k ∨ x ∈ m.map Prod.fst := by
  induction m with
  | nil => simp [pushSlotSorted]
  | cons hd tl ih =>
      obtain ⟨a, v⟩ := hd
      simp only [pushSlotSorted]
      by_cases h1 : k = a
      · rw [if_pos h1]
        subst h1
        rw [List.map_cons, List.mem_cons, List.map_cons, List.mem_cons]
        tauto
      · rw [if_neg h1]
        by_cases h3 : k < a
        · rw [if_pos h3]
          simp only [List.map_cons, List.mem_cons]
        · rw [if_neg h3]
          simp only [List.map_cons, List.mem_cons, ih]
          tauto

theorem pairwise_keys_pushSlotSorted {m : List (Nat × List Slot)} {k : Nat} {s : Slot}
    (h : (m.map Prod.fst).Pairwise (· < ·)) :
    ((pushSlotSorted m k s).map Prod.fst).Pairwise (· < ·) := by
  induction m with
  | nil => simp [pushSlotSorted]
  | cons hd tl ih =>
      obtain ⟨a, v⟩ := hd
      rw [List.map_cons, List.pairwise_cons] at h
      simp only [pushSlotSorted]
      by_cases h1 : k = a
      · rw [if_pos h1, List.map_cons, List.pairwise_cons]
        exact ⟨h.1, h.2⟩
      · rw [if_neg h1]
        by_cases h3 : k < a
        · rw [if_pos h3, List.map_cons, List.pairwise_cons]
          refine ⟨?_, ?_⟩
          · intro x hx
            rw [List.map_cons, List.mem_cons] at hx
            rcases hx with rfl | hx
            · exact h3
            · exact Nat.lt_trans h3 (h.1 x hx)
          · rw [List.map_cons, List.pairwise_cons]
            exact ⟨h.1, h.2⟩
        · rw [if_neg h3, List.map_cons, List.pairwise_cons]
          refine ⟨?_, ih h.2⟩
          intro x hx
          rcases mem_keys_pushSlotSorted.mp hx with rfl | hx
          · omega
          · exact h.1 x hx

theorem lookupKey_pushSlotSorted {m : List (Nat × List Slot)}
    (hs : (m.map Prod.fst).Pairwise (· < ·)) (k : Nat) (s : Slot) (k' : Nat) :
    lookupKey (pushSlotSorted m k s) k' =
      if k' = k then some ((lookupKey m k).getD [] ++ [s]) else lookupKey m k' := by
  induction m with
  | nil =>
      simp only [pushSlotSorted]
      by_cases h : k' = k
      · subst h; rw [lookupKey_cons, if_pos rfl, if_pos rfl]; rfl
      · rw [lookupKey_cons, if_neg (fun hh => h hh.symm), if_neg h]
  | cons hd tl ih =>
      obtain ⟨a, v⟩ := hd
      rw [List.map_cons, List.pairwise_cons] at hs
      simp only [pushSlotSorted]
      by_cases h1 : k = a
      · rw [if_pos h1]
        subst h1
        by_cases h2 : k' = k
        · subst h2
          rw [lookupKey_cons, if_pos rfl, if_pos rfl, lookupKey_cons, if_pos rfl]
          rfl
        · have h2' : ¬k = k' := fun hh => h2 hh.symm
          rw [lookupKey_cons, if_neg h2', if_neg h2, lookupKey_cons, if_neg h2']
      · rw [if_neg h1]
        by_cases h3 : k < a
        · rw [if_pos h3]
          by_cases h2 : k' = k
          · subst h2
            rw [lookupKey_cons, if_pos rfl, if_pos rfl, lookupKey_cons,
              if_neg (fun hh : a = k' => h1 hh.symm)]
            have hnone : lookupKey tl k' = none := by
              rw [lookupKey_eq_none_iff]
              intro hmem
              exact absurd (hs.1 k' hmem) (by omega)
            rw [hnone]
            rfl
          · rw [lookupKey_cons, if_neg (fun hh : k = k' => h2 hh.symm), if_neg h2]
        · rw [if_neg h3]
          by_cases h2 : a = k'
          · have hk : ¬k' = k := fun hh => h1 ((h2.trans hh).symm ▸ rfl)
            rw [lookupKey_cons, if_pos h2, if_neg hk, lookupKey_cons, if_pos h2]
          · rw [lookupKey_cons, if_neg h2, ih hs.2]
            by_cases h4 : k' = k
            · rw [if_pos h4, if_pos h4, lookupKey_cons,
                if_neg (fun hh : a = k => h1 hh.symm)]
            · rw [if_neg h4, if_neg h4, lookupKey_cons, if_neg h2]

theorem lookupKey_filterVal {κ β : Type} [DecidableEq κ] {m : List (κ × β)}
    (q : β → Bool) (hn : (m.map Prod.fst).Nodup) (k : κ) :
    lookupKey (m.filter fun p => q p.2) k =
      (lookupKey m k).bind fun v => if q v then some v else none := by
  induction m with
  | nil => rfl
  | cons hd tl ih =>
      obtain ⟨a, b⟩ := hd
      rw [List.map_cons, List.nodup_cons] at hn
      rw [List.filter_cons]
      by_cases hq : q b
      · rw [if_pos hq]
        by_cases hak : a = k
        · rw [lookupKey_cons, if_pos hak, lookupKey_cons, if_pos hak]
          show some b = if q b = true then some b else none
          rw [if_pos hq]
        · rw [lookupKey_cons, if_neg hak, lookupKey_cons, if_neg hak]
          exact ih hn.2
      · rw [if_neg hq]
        by_cases hak : a = k
        · subst hak
          rw [lookupKey_cons, if_pos rfl]
          show lookupKey (List.filter (fun p => q p.2) tl) a =
            if q b = true then some b else none
          rw [if_neg hq, lookupKey_eq_none_iff]
          intro hmem
          apply hn.1
          obtain ⟨p, hp, hpa⟩ := List.mem_map.mp hmem
          have hptl : p ∈ tl := List.mem_of_mem_filter hp
          have hfst : p.1 ∈ List.map Prod.fst tl := List.mem_map_of_mem Prod.fst hptl
          exact hpa ▸ hfst
        · rw [lookupKey_cons, if_neg hak]
          exact ih hn.2

theorem lookupKey_removeEntry {κ β : Type} [DecidableEq κ] (m : List (κ × β))
    (k k' : κ) :
    lookupKey (m.filter fun p => decide (p.1 ≠ k)) k' =
      if k' = k then none else lookupKey m k' := by
  induction m with
  | nil =>
      rw [List.filter_nil]
      by_cases h : k' = k
      · rw [if_pos h]; rfl
      · rw [if_neg h]
  | cons hd tl ih =>
      obtain ⟨a, b⟩ := hd
      rw [List.filter_cons]
      by_cases hak : a = k
      · subst hak
        rw [if_neg (by simp)]
        rw [ih]
        by_cases h : k' = a
        · rw [if_pos h, if_pos h]
        · rw [if_neg h, if_neg h, lookupKey_cons, if_neg (fun hh => h hh.symm)]
      · rw [if_pos (by simpa using hak)]
        rw [lookupKey_cons]
        by_cases h2 : a = k'
        · have hk : ¬k' = k := fun hh => hak (h2.trans hh)
          rw [if_pos h2, if_neg hk, lookupKey_cons, if_pos h2]
        · rw [if_neg h2, ih]
          by_cases h : k' = k
          · rw [if_pos h, if_pos h]
          · rw [if_neg h, if_neg h, lookupKey_cons, if_neg h2]

theorem count_filter_ne {l : List Slot} {s x : Slot} :
    (l.filter fun y => decide (y ≠ s)).count x = if x = s then 0 else l.count x := by
  induction l with
  | nil =>
      rw [List.filter_nil]
      by_cases h : x = s
      · rw [if_pos h]; rfl
      · rw [if_neg h]
  | cons hd tl ih =>
      rw [List.filter_cons]
      by_cases hhd : hd = s
      · rw [if_neg (by simp [hhd])]
        rw [ih]
        by_cases hx : x = s
        · rw [if_pos hx, if_pos hx]
        · rw [if_neg hx, if_neg hx, List.count_cons]
          have hbeq : (hd == x) = false := by
            subst hhd
            exact beq_eq_false_iff_ne.mpr (fun hh => hx hh.symm)
          rw [hbeq]
          rfl
      · rw [if_pos (by simpa using hhd)]
        rw [List.count_cons, ih]
        by_cases hx : x = s
        · subst hx
          rw [if_pos rfl, if_pos rfl]
          have hbeq : (hd == x) = false := beq_eq_false_iff_ne.mpr hhd
          rw [hbeq]
          rfl
        · rw [if_neg hx, if_neg hx, List.count_cons]

theorem inventory_remove_perm {inv : Inventory} {slot : Slot} {it : Item}
    (hn : (inv.map Prod.fst).Nodup) (hl : lookupSlot inv slot = some it) :
    inv.Perm ((slot, it) :: removeSlotEntry inv slot) := by
  induction inv with
  | nil => exact absurd hl (by rw [show lookupSlot [] slot = none from rfl]; simp)
  | cons hd tl ih =>
      obtain ⟨a, b⟩ := hd
      rw [List.map_cons, List.nodup_cons] at hn
      by_cases hak : a = slot
      · subst hak
        rw [lookupSlot_cons, if_pos rfl] at hl
        obtain rfl : b = it := Option.some.inj hl
        unfold removeSlotEntry
        rw [List.filter_cons, if_neg (by simp)]
        have hfe : tl.filter (fun p => decide (p.1 ≠ a)) = tl := by
          apply List.filter_eq_self.mpr
          intro p hp
          simp only [ne_eq, decide_eq_true_eq]
          intro hpa
          have hfst : p.1 ∈ List.map Prod.fst tl := List.mem_map_of_mem Prod.fst hp
          exact hn.1 (hpa ▸ hfst)
        rw [hfe]
      · rw [lookupSlot_cons, if_neg hak] at hl
        unfold removeSlotEntry
        rw [List.filter_cons, if_pos (by simpa using hak)]
        exact ((ih hn.2 hl).cons (a, b)).trans (List.Perm.swap (slot, it) (a, b) _)

/-- Number of occupants (anchored entries) carrying the id `id`. -/
def occCountId (inv : Inventory) (id : Nat) : Nat :=
  inv.countP fun p => decide (p.2.id = id)

/-- Number of occupants carrying the name `name`. -/
def occCountName (inv : Inventory) (name : String) : Nat :=
  inv.countP fun p => decide (p.2.name = name)

/-- Whether the anchor `s` currently holds an occupant with id `id`. -/
def occupiesId (inv : Inventory) (s : Slot) (id : Nat) : Bool :=
  match lookupSlot inv s with
  | some it => decide (it.id = id)
  | none => false

/-- Whether the anchor `s` currently holds a Fragile occupant whose
expiration date is `d`. -/
def fragileAt (inv : Inventory) (s : Slot) (d : Nat) : Bool :=
  match lookupSlot inv s with
  | some it =>
      match it.quality with
      | .Fragile d' _ => decide (d' = d)
      | _ => false
  | none => false

/-- The consistency invariant tying the four derived indices to the
occupancy map (spec §3 invariants 2 and 4, plus the well-formedness of
the association-list renderings of the Rust maps). -/
structure LedgerInv {σ : Type} (m : Manager σ) : Prop where
  inv_nodup : (m.inventory.map Prod.fst).Nodup
  ids_nodup : (m.map_ids.map Prod.fst).Nodup
  names_nodup : (m.map_names.map Prod.fst).Nodup
  slots_nodup : (m.map_slots.map Prod.fst).Nodup
  dates_sorted : (m.map_dates.map Prod.fst).Pairwise (· < ·)
  ids_eq : ∀ id, lookupKey m.map_ids id =
    if occCountId m.inventory id = 0 then none else some (occCountId m.inventory id)
  names_eq : ∀ name, lookupKey m.map_names name =
    if occCountName m.inventory name = 0 then none
    else some (occCountName m.inventory name)
  slots_eq : ∀ id, match lookupKey m.map_slots id with
    | none => ∀ s, occupiesId m.inventory s id = false
    | some l => l ≠ [] ∧ ∀ s, l.count s = if occupiesId m.inventory s id then 1 else 0
  dates_eq : ∀ d, match lookupKey m.map_dates d with
    | none => ∀ s, fragileAt m.inventory s d = false
    | some l => l ≠ [] ∧ ∀ s, l.count s = if fragileAt m.inventory s d then 1 else 0

/-- A successful Round-Robin allocation returns an available slot. -/
theorem rr_alloc_avail {a : RoundRobinAllocator} {item : Item} {inv : Inventory}
    {s : Slot} {a' : RoundRobinAllocator}
    (h : a.alloc item inv = (some s, a')) : is_slot_available s item inv = true := by
  unfold RoundRobinAllocator.alloc at h
  split at h
  case h_1 s0 hf =>
    simp only [Prod.mk.injEq, Option.some.injEq] at h
    obtain ⟨rfl, -⟩ := h
    have hp := List.find?_some hf
    rw [Bool.and_eq_true] at hp
    exact hp.1
  case h_2 => simp at h

/-- A successful Greedy allocation returns an available slot. -/
theorem greedy_alloc_avail {a : GreedyAllocator} {item : Item} {inv : Inventory}
    {s : Slot} {a' : GreedyAllocator}
    (h : a.alloc item inv = (some s, a')) : is_slot_available s item inv = true := by
  unfold GreedyAllocator.alloc at h
  simp only [Prod.mk.injEq] at h
  have hp := List.find?_some h.1
  rw [Bool.and_eq_true] at hp
  exact hp.1

/-- An available slot for an item of footprint at least 1 is itself
unoccupied (the forward check inspects the anchor's own zone). -/
theorem lookup_none_of_avail {slot : Slot} {item : Item} {inv : Inventory}
    (h : is_slot_available slot item inv = true) (hs : 1 ≤ get_item_size item) :
    lookupSlot inv slot = none := by
  cases hl : lookupSlot inv slot with
  | none => rfl
  | some it =>
      exfalso
      simp only [is_slot_available] at h
      split_ifs at h with h1 h2
      · refine h2 (List.any_eq_true.mpr
          ⟨slot.zone, mem_rustRange.mpr ⟨Nat.le_refl _, by omega⟩, ?_⟩)
        have hsl : (⟨slot.row, slot.shelf, slot.zone⟩ : Slot) = slot := rfl
        rw [hsl, hl]
        rfl

theorem lookupSlot_insert {inv : Inventory} {slot : Slot} {it : Item}
    (hn : lookupSlot inv slot = none) (s : Slot) :
    lookupSlot (inv ++ [(slot, it)]) s = if s = slot then some it else lookupSlot inv s := by
  rw [lookupSlot_eq_lookupKey, lookupKey_append]
  by_cases h : s = slot
  · subst h
    rw [if_pos rfl, ← lookupSlot_eq_lookupKey, hn, lookupKey_cons, if_pos rfl]
    rfl
  · rw [if_neg h, lookupKey_cons, if_neg (fun hh => h hh.symm), lookupKey_nil,
      Option.or_none, lookupSlot_eq_lookupKey]

theorem lookupSlot_removeEntry (inv : Inventory) (slot s : Slot) :
    lookupSlot (removeSlotEntry inv slot) s =
      if s = slot then none else lookupSlot inv s := by
  unfold removeSlotEntry
  rw [lookupSlot_eq_lookupKey, lookupKey_removeEntry, lookupSlot_eq_lookupKey]

theorem occupiesId_insert {inv : Inventory} {slot : Slot} {it : Item}
    (hn : lookupSlot inv slot = none) (s : Slot) (id : Nat) :
    occupiesId (inv ++ [(slot, it)]) s id =
      if s = slot then decide (it.id = id) else occupiesId inv s id := by
  unfold occupiesId
  rw [lookupSlot_insert hn]
  by_cases h : s = slot
  · rw [if_pos h, if_pos h]
  · rw [if_neg h, if_neg h]

theorem fragileAt_insert {inv : Inventory} {slot : Slot} {it : Item}
    (hn : lookupSlot inv slot = none) (s : Slot) (d : Nat) :
    fragileAt (inv ++ [(slot, it)]) s d =
      if s = slot then
        (match it.quality with
         | .Fragile d' _ => decide (d' = d)
         | _ => false)
      else fragileAt inv s d := by
  unfold fragileAt
  rw [lookupSlot_insert hn]
  by_cases h : s = slot
  · rw [if_pos h, if_pos h]
  · rw [if_neg h, if_neg h]

theorem occupiesId_removeEntry (inv : Inventory) (slot s : Slot) (id : Nat) :
    occupiesId (removeSlotEntry inv slot) s id =
      if s = slot then false else occupiesId inv s id := by
  unfold occupiesId
  rw [lookupSlot_removeEntry]
  by_cases h : s = slot
  · rw [if_pos h, if_pos h]
  · rw [if_neg h, if_neg h]

theorem fragileAt_removeEntry (inv : Inventory) (slot s : Slot) (d : Nat) :
    fragileAt (removeSlotEntry inv slot) s d =
      if s = slot then false else fragileAt inv s d := by
  unfold fragileAt
  rw [lookupSlot_removeEntry]
  by_cases h : s = slot
  · rw [if_pos h, if_pos h]
  · rw [if_neg h, if_neg h]

theorem occCountId_insert (inv : Inventory) (slot : Slot) (it : Item) (id : Nat) :
    occCountId (inv ++ [(slot, it)]) id =
      occCountId inv id + (if it.id = id then 1 else 0) := by
  unfold occCountId
  rw [List.countP_append, List.countP_cons]
  by_cases h : it.id = id <;> simp [h]

theorem occCountName_insert (inv : Inventory) (slot : Slot) (it : Item) (n : String) :
    occCountName (inv ++ [(slot, it)]) n =
      occCountName inv n + (if it.name = n then 1 else 0) := by
  unfold occCountName
  rw [List.countP_append, List.countP_cons]
  by_cases h : it.name = n <;> simp [h]

theorem occCountId_remove {inv : Inventory} {slot : Slot} {it : Item}
    (hn : (inv.map Prod.fst).Nodup) (hl : lookupSlot inv slot = some it) (id : Nat) :
    occCountId inv id =
      occCountId (removeSlotEntry inv slot) id + (if it.id = id then 1 else 0) := by
  unfold occCountId
  rw [(inventory_remove_perm hn hl).countP_eq, List.countP_cons]
  by_cases h : it.id = id <;> simp [h]

theorem occCountName_remove {inv : Inventory} {slot : Slot} {it : Item}
    (hn : (inv.map Prod.fst).Nodup) (hl : lookupSlot inv slot = some it) (n : String) :
    occCountName inv n =
      occCountName (removeSlotEntry inv slot) n + (if it.name = n then 1 else 0) := by
  unfold occCountName
  rw [(inventory_remove_perm hn hl).countP_eq, List.countP_cons]
  by_cases h : it.name = n <;> simp [h]

theorem occupiesId_false_of_lookup_none {inv : Inventory} {s : Slot}
    (hn : lookupSlot inv s = none) (id : Nat) : occupiesId inv s id = false := by
  unfold occupiesId
  rw [hn]

theorem fragileAt_false_of_lookup_none {inv : Inventory} {s : Slot}
    (hn : lookupSlot inv s = none) (d : Nat) : fragileAt inv s d = false := by
  unfold fragileAt
  rw [hn]

theorem update_timestamp_id (it : Item) (now : Nat) : (it.update_timestamp now).id = it.id := rfl

theorem update_timestamp_name (it : Item) (now : Nat) :
    (it.update_timestamp now).name = it.name := rfl

theorem update_timestamp_quality (it : Item) (now : Nat) :
    (it.update_timestamp now).quality = it.quality := rfl

theorem commit_state {σ : Type} (m : Manager σ) (slot : Slot) (item : Item) (now : Nat)
    (hlookup : lookupSlot m.inventory slot = none) :
    (m.update_maps_on_insert slot item).insert_item_raw slot item now =
      { m with
        inventory := m.inventory ++ [(slot, item.update_timestamp now)],
        map_ids := bumpCount m.map_ids item.id,
        map_names := bumpCount m.map_names item.name,
        map_slots := pushSlot m.map_slots item.id slot,
        map_dates :=
          match item.quality with
          | .Fragile expiration_date _ => pushSlotSorted m.map_dates expiration_date slot
          | _ => m.map_dates } := by
  unfold Manager.insert_item_raw Manager.update_maps_on_insert
  dsimp only
  rw [hlookup]

theorem ledgerInv_commit {σ : Type} {m : Manager σ} (hInv : LedgerInv m)
    (slot : Slot) (item : Item) (now : Nat)
    (hlookup : lookupSlot m.inventory slot = none) :
    LedgerInv ((m.update_maps_on_insert slot item).insert_item_raw slot item now) := by
  rw [commit_state m slot item now hlookup]
  have hk : lookupKey m.inventory slot = none := by
    rw [← lookupSlot_eq_lookupKey]; exact hlookup
  have hnm : slot ∉ m.inventory.map Prod.fst := lookupKey_eq_none_iff.mp hk
  refine ⟨?_, ?_, ?_, ?_, ?_, ?_, ?_, ?_, ?_⟩
  · -- inventory keys stay duplicate-free
    show (List.map Prod.fst (m.inventory ++ [(slot, item.update_timestamp now)])).Nodup
    rw [List.map_append]
    refine hInv.inv_nodup.append (by simp) ?_
    intro a ha hb
    simp only [List.map_cons, List.map_nil, List.mem_cons, List.not_mem_nil,
      or_false] at hb
    exact hnm (hb ▸ ha)
  · -- id-count keys stay duplicate-free
    show ((bumpCount m.map_ids item.id).map Prod.fst).Nodup
    rcases keys_bumpCount_cases m.map_ids item.id with he | ⟨hnone, he⟩
    · rw [he]; exact hInv.ids_nodup
    · rw [he]
      refine hInv.ids_nodup.append (by simp) ?_
      intro a ha hb
      simp only [List.mem_cons, List.not_mem_nil, or_false] at hb
      exact (lookupKey_eq_none_iff.mp hnone) (hb ▸ ha)
  · -- name-count keys stay duplicate-free
    show ((bumpCount m.map_names item.name).map Prod.fst).Nodup
    rcases keys_bumpCount_cases m.map_names item.name with he | ⟨hnone, he⟩
    · rw [he]; exact hInv.names_nodup
    · rw [he]
      refine hInv.names_nodup.append (by simp) ?_
      intro a ha hb
      simp only [List.mem_cons, List.not_mem_nil, or_false] at hb
      exact (lookupKey_eq_none_iff.mp hnone) (hb ▸ ha)
  · -- slots-by-id keys stay duplicate-free
    show ((pushSlot m.map_slots item.id slot).map Prod.fst).Nodup
    rcases keys_pushSlot_cases m.map_slots item.id slot with he | ⟨hnone, he⟩
    · rw [he]; exact hInv.slots_nodup
    · rw [he]
      refine hInv.slots_nodup.append (by simp) ?_
      intro a ha hb
      simp only [List.mem_cons, List.not_mem_nil, or_false] at hb
      exact (lookupKey_eq_none_iff.mp hnone) (hb ▸ ha)
  · -- expiry keys stay sorted
    show ((match item.quality with
        | .Fragile expiration_date _ => pushSlotSorted m.map_dates expiration_date slot
        | _ => m.map_dates).map Prod.fst).Pairwise (· < ·)
    cases hq : item.quality with
    | Fragile d0 mr => exact pairwise_keys_pushSlotSorted hInv.dates_sorted
    | OverSized sz => exact hInv.dates_sorted
    | Normal => exact hInv.dates_sorted
  · -- id counts track the occupancy map
    intro id
    show lookupKey (bumpCount m.map_ids item.id) id = _
    rw [lookupKey_bumpCount]
    by_cases hid : id = item.id
    · rw [if_pos hid]
      have hocc : occCountId (m.inventory ++ [(slot, item.update_timestamp now)]) id =
          occCountId m.inventory id + 1 := by
        rw [occCountId_insert, update_timestamp_id, if_pos hid.symm]
      rw [hocc, ← hid]
      have hold := hInv.ids_eq id
      cases hc : occCountId m.inventory id with
      | zero => rw [hc, if_pos rfl] at hold; rw [hold]; simp
      | succ n => rw [hc, if_neg (by omega)] at hold; rw [hold]; simp
    · rw [if_neg hid]
      have hocc : occCountId (m.inventory ++ [(slot, item.update_timestamp now)]) id =
          occCountId m.inventory id := by
        rw [occCountId_insert, update_timestamp_id,
          if_neg (fun hh => hid hh.symm), Nat.add_zero]
      rw [hocc]
      exact hInv.ids_eq id
  · -- name counts track the occupancy map
    intro n
    show lookupKey (bumpCount m.map_names item.name) n = _
    rw [lookupKey_bumpCount]
    by_cases hid : n = item.name
    · rw [if_pos hid]
      have hocc : occCountName (m.inventory ++ [(slot, item.update_timestamp now)]) n =
          occCountName m.inventory n + 1 := by
        rw [occCountName_insert, update_timestamp_name, if_pos hid.symm]
      rw [hocc, ← hid]
      have hold := hInv.names_eq n
      cases hc : occCountName m.inventory n with
      | zero => rw [hc, if_pos rfl] at hold; rw [hold]; simp
      | succ k => rw [hc, if_neg (by omega)] at hold; rw [hold]; simp
    · rw [if_neg hid]
      have hocc : occCountName (m.inventory ++ [(slot, item.update_timestamp now)]) n =
          occCountName m.inventory n := by
        rw [occCountName_insert, update_timestamp_name,
          if_neg (fun hh => hid hh.symm), Nat.add_zero]
      rw [hocc]
      exact hInv.names_eq n
  · -- slots-by-id buckets track the occupancy map
    intro id
    show (match lookupKey (pushSlot m.map_slots item.id slot) id with
      | none => ∀ s, occupiesId (m.inventory ++ [(slot, item.update_timestamp now)]) s id = false
      | some l => l ≠ [] ∧ ∀ s, l.count s =
          if occupiesId (m.inventory ++ [(slot, item.update_timestamp now)]) s id then 1
          else 0)
    rw [lookupKey_pushSlot]
    by_cases hid : id = item.id
    · rw [if_pos hid]
      refine ⟨by simp, ?_⟩
      intro s
      rw [List.count_append, occupiesId_insert hlookup, update_timestamp_id]
      have holds := hInv.slots_eq item.id
      by_cases hs : s = slot
      · subst hs
        rw [if_pos rfl, if_pos (decide_eq_true hid.symm)]
        have hc0 : ((lookupKey m.map_slots item.id).getD []).count s = 0 := by
          cases hb : lookupKey m.map_slots item.id with
          | none => simp
          | some l =>
              rw [hb] at holds
              have hcc := holds.2 s
              rw [occupiesId_false_of_lookup_none hlookup] at hcc
              simpa using hcc
        rw [hc0]
        simp
      · rw [if_neg hs]
        have hss : ¬slot = s := fun hh => hs hh.symm
        have hsing : List.count s [slot] = 0 := by
          simp [List.count_cons, hss]
        rw [hsing, Nat.add_zero]
        subst hid
        cases hb : lookupKey m.map_slots item.id with
        | none =>
            rw [hb] at holds
            have hfalse : occupiesId m.inventory s item.id = false := holds s
            rw [hfalse]
            simp
        | some l =>
            rw [hb] at holds
            exact holds.2 s
    · rw [if_neg hid]
      have holds := hInv.slots_eq id
      have hocc : ∀ s, occupiesId (m.inventory ++ [(slot, item.update_timestamp now)]) s id =
          occupiesId m.inventory s id := by
        intro s
        rw [occupiesId_insert hlookup, update_timestamp_id]
        by_cases hs : s = slot
        · rw [if_pos hs]
          rw [hs, occupiesId_false_of_lookup_none hlookup]
          have hne : ¬item.id = id := fun hh => hid hh.symm
          simp [hne]
        · rw [if_neg hs]
      cases hb : lookupKey m.map_slots id with
      | none =>
          rw [hb] at holds
          intro s
          rw [hocc s]
          exact holds s
      | some l =>
          rw [hb] at holds
          refine ⟨holds.1, ?_⟩
          intro s
          rw [hocc s]
          exact holds.2 s
  · -- expiry buckets track the occupancy map
    intro d
    show (match lookupKey
        (match item.quality with
         | .Fragile expiration_date _ => pushSlotSorted m.map_dates expiration_date slot
         | _ => m.map_dates) d with
      | none => ∀ s, fragileAt (m.inventory ++ [(slot, item.update_timestamp now)]) s d = false
      | some l => l ≠ [] ∧ ∀ s, l.count s =
          if fragileAt (m.inventory ++ [(slot, item.update_timestamp now)]) s d then 1
          else 0)
    have hfr : ∀ s, fragileAt (m.inventory ++ [(slot, item.update_timestamp now)]) s d =
        if s = slot then
          (match item.quality with
           | .Fragile d' _ => decide (d' = d)
           | _ => false)
        else fragileAt m.inventory s d := by
      intro s
      rw [fragileAt_insert hlookup, update_timestamp_quality]
    cases hq : item.quality with
    | Fragile d0 mr =>
        rw [hq] at hfr
        rw [lookupKey_pushSlotSorted hInv.dates_sorted]
        by_cases hd : d = d0
        · subst hd
          rw [if_pos rfl]
          refine ⟨by simp, ?_⟩
          intro s
          rw [List.count_append, hfr s]
          have holdd := hInv.dates_eq d
          by_cases hs : s = slot
          · subst hs
            rw [if_pos rfl, if_pos (by simp)]
            have hc0 : ((lookupKey m.map_dates d).getD []).count s = 0 := by
              cases hb : lookupKey m.map_dates d with
              | none => simp
              | some l =>
                  rw [hb] at holdd
                  have hcc := holdd.2 s
                  rw [fragileAt_false_of_lookup_none hlookup] at hcc
                  simpa using hcc
            rw [hc0]
            simp
          · rw [if_neg hs]
            have hss : ¬slot = s := fun hh => hs hh.symm
            have hsing : List.count s [slot] = 0 := by
              simp [List.count_cons, hss]
            rw [hsing, Nat.add_zero]
            cases hb : lookupKey m.map_dates d with
            | none =>
                rw [hb] at holdd
                have hfalse : fragileAt m.inventory s d = false := holdd s
                rw [hfalse]
                simp
            | some l =>
                rw [hb] at holdd
                exact holdd.2 s
        · rw [if_neg hd]
          have holdd := hInv.dates_eq d
          have hocc : ∀ s,
              fragileAt (m.inventory ++ [(slot, item.update_timestamp now)]) s d =
              fragileAt m.inventory s d := by
            intro s
            rw [hfr s]
            by_cases hs : s = slot
            · rw [if_pos hs, hs, fragileAt_false_of_lookup_none hlookup]
              have hne : ¬d0 = d := fun hh => hd hh.symm
              simp [hne]
            · rw [if_neg hs]
          cases hb : lookupKey m.map_dates d with
          | none =>
              rw [hb] at holdd
              intro s
              rw [hocc s]
              exact holdd s
          | some l =>
              rw [hb] at holdd
              refine ⟨holdd.1, ?_⟩
              intro s
              rw [hocc s]
              exact holdd.2 s
    | OverSized sz =>
        rw [hq] at hfr
        have holdd := hInv.dates_eq d
        have hocc : ∀ s,
            fragileAt (m.inventory ++ [(slot, item.update_timestamp now)]) s d =
            fragileAt m.inventory s d := by
          intro s
          rw [hfr s]
          by_cases hs : s = slot
          · rw [if_pos hs, hs, fragileAt_false_of_lookup_none hlookup]
          · rw [if_neg hs]
        cases hb : lookupKey m.map_dates d with
        | none =>
            rw [hb] at holdd
            intro s
            rw [hocc s]
            exact holdd s
        | some l =>
            rw [hb] at holdd
            refine ⟨holdd.1, ?_⟩
            intro s
            rw [hocc s]
            exact holdd.2 s
    | Normal =>
        rw [hq] at hfr
        have holdd := hInv.dates_eq d
        have hocc : ∀ s,
            fragileAt (m.inventory ++ [(slot, item.update_timestamp now)]) s d =
            fragileAt m.inventory s d := by
          intro s
          rw [hfr s]
          by_cases hs : s = slot
          · rw [if_pos hs, hs, fragileAt_false_of_lookup_none hlookup]
          · rw [if_neg hs]
        cases hb : lookupKey m.map_dates d with
        | none =>
            rw [hb] at holdd
            intro s
            rw [hocc s]
            exact holdd s
        | some l =>
            rw [hb] at holdd
            refine ⟨holdd.1, ?_⟩
            intro s
            rw [hocc s]
            exact holdd.2 s

theorem occupiesId_true_at {inv : Inventory} {slot : Slot} {it : Item}
    (hl : lookupSlot inv slot = some it) : occupiesId inv slot it.id = true := by
  unfold occupiesId
  rw [hl]
  simp

theorem fragileAt_true_at {inv : Inventory} {slot : Slot} {it : Item} {e0 mr : Nat}
    (hl : lookupSlot inv slot = some it) (hq : it.quality = .Fragile e0 mr) :
    fragileAt inv slot e0 = true := by
  unfold fragileAt
  rw [hl]
  show (match it.quality with
    | .Fragile d' _ => decide (d' = e0)
    | _ => false) = true
  rw [hq]
  simp

theorem remove_state {σ : Type} (m : Manager σ) (row shelf zone : Nat) (item0 : Item)
    (hl : lookupSlot m.inventory ⟨row, shelf, zone⟩ = some item0) :
    m.remove_item row shelf zone =
      { m with
        inventory := removeSlotEntry m.inventory ⟨row, shelf, zone⟩,
        map_ids := (decCount m.map_ids item0.id).filter fun p => decide (p.2 ≠ 0),
        map_names := (decCount m.map_names item0.name).filter fun p => decide (p.2 ≠ 0),
        map_slots := (retainSlot m.map_slots item0.id ⟨row, shelf, zone⟩).filter
          fun p => !p.2.isEmpty,
        map_dates := (match item0.quality with
          | .Fragile expiration_date _ =>
              retainSlot m.map_dates expiration_date ⟨row, shelf, zone⟩
          | _ => m.map_dates).filter fun p => !p.2.isEmpty } := by
  unfold Manager.remove_item Manager.update_maps_on_remove
  dsimp only
  rw [hl]

theorem retain_filter_bucket_inv {κ : Type} [DecidableEq κ]
    (mp : List (κ × List Slot)) (k0 : κ) (slot : Slot)
    (hn : (mp.map Prod.fst).Nodup) (Q Q' : Slot → κ → Bool)
    (hQ : ∀ s key, Q' s key = if s = slot then false else Q s key)
    (hQslot : ∀ key, key ≠ k0 → Q slot key = false)
    (hinv : ∀ key, match lookupKey mp key with
      | none => ∀ s, Q s key = false
      | some l => l ≠ [] ∧ ∀ s, l.count s = if Q s key then 1 else 0)
    (key : κ) :
    match lookupKey ((retainSlot mp k0 slot).filter fun p => !p.2.isEmpty) key with
    | none => ∀ s, Q' s key = false
    | some l => l ≠ [] ∧ ∀ s, l.count s = if Q' s key then 1 else 0 := by
  have hret_nodup : ((retainSlot mp k0 slot).map Prod.fst).Nodup := by
    rw [keys_retainSlot]; exact hn
  rw [lookupKey_filterVal (fun l => !l.isEmpty) hret_nodup, lookupKey_retainSlot]
  have h0 := hinv key
  by_cases hk : key = k0
  · rw [if_pos hk]
    cases hb : lookupKey mp key with
    | none =>
        rw [hb] at h0
        show ∀ s, Q' s key = false
        intro s
        rw [hQ s key]
        by_cases hs : s = slot
        · rw [if_pos hs]
        · rw [if_neg hs]; exact h0 s
    | some l =>
        rw [hb] at h0
        show (match (if (!(l.filter fun x => decide (x ≠ slot)).isEmpty) = true
            then some (l.filter fun x => decide (x ≠ slot)) else none) with
          | none => ∀ s, Q' s key = false
          | some l => l ≠ [] ∧ ∀ s, l.count s = if Q' s key then 1 else 0)
        by_cases hemp : (l.filter fun x => decide (x ≠ slot)).isEmpty
        · rw [show (!(l.filter fun x => decide (x ≠ slot)).isEmpty) = false by
            rw [hemp]; rfl]
          rw [if_neg (by simp)]
          show ∀ s, Q' s key = false
          intro s
          rw [hQ s key]
          by_cases hs : s = slot
          · rw [if_pos hs]
          · rw [if_neg hs]
            have hc := h0.2 s
            have hcf := @count_filter_ne l slot s
            rw [List.isEmpty_iff.mp hemp] at hcf
            simp only [List.count_nil] at hcf
            rw [if_neg hs] at hcf
            by_cases hq2 : Q s key
            · rw [hq2, if_pos rfl] at hc; omega
            · rwa [Bool.not_eq_true] at hq2
        · rw [show (!(l.filter fun x => decide (x ≠ slot)).isEmpty) = true by
            rw [Bool.not_eq_true', Bool.eq_false_iff]; exact hemp]
          rw [if_pos rfl]
          refine ⟨by rwa [Ne, ← List.isEmpty_iff], ?_⟩
          intro s
          rw [count_filter_ne, hQ s key]
          by_cases hs : s = slot
          · rw [if_pos hs, if_pos hs]
            simp
          · rw [if_neg hs, if_neg hs]
            exact h0.2 s
  · rw [if_neg hk]
    cases hb : lookupKey mp key with
    | none =>
        rw [hb] at h0
        show ∀ s, Q' s key = false
        intro s
        rw [hQ s key]
        by_cases hs : s = slot
        · rw [if_pos hs]
        · rw [if_neg hs]; exact h0 s
    | some l =>
        rw [hb] at h0
        show (match (if (!l.isEmpty) = true then some l else none) with
          | none => ∀ s, Q' s key = false
          | some l => l ≠ [] ∧ ∀ s, l.count s = if Q' s key then 1 else 0)
        rw [show (!l.isEmpty) = true by
          rw [Bool.not_eq_true', Bool.eq_false_iff, Ne, List.isEmpty_iff]; exact h0.1]
        rw [if_pos rfl]
        refine ⟨h0.1, ?_⟩
        intro s
        rw [hQ s key]
        by_cases hs : s = slot
        · rw [if_pos hs]
          have hc := h0.2 slot
          rw [hQslot key hk, if_neg (by simp)] at hc
          rw [hs, hc]
          simp
        · rw [if_neg hs]
          exact h0.2 s

theorem filter_bucket_inv {κ : Type} [DecidableEq κ]
    (mp : List (κ × List Slot)) (slot : Slot)
    (hn : (mp.map Prod.fst).Nodup) (Q Q' : Slot → κ → Bool)
    (hQ : ∀ s key, Q' s key = if s = slot then false else Q s key)
    (hQslot : ∀ key, Q slot key = false)
    (hinv : ∀ key, match lookupKey mp key with
      | none => ∀ s, Q s key = false
      | some l => l ≠ [] ∧ ∀ s, l.count s = if Q s key then 1 else 0)
    (key : κ) :
    match lookupKey (mp.filter fun p => !p.2.isEmpty) key with
    | none => ∀ s, Q' s key = false
    | some l => l ≠ [] ∧ ∀ s, l.count s = if Q' s key then 1 else 0 := by
  rw [lookupKey_filterVal (fun l => !l.isEmpty) hn]
  have h0 := hinv key
  cases hb : lookupKey mp key with
  | none =>
      rw [hb] at h0
      show ∀ s, Q' s key = false
      intro s
      rw [hQ s key]
      by_cases hs : s = slot
      · rw [if_pos hs]
      · rw [if_neg hs]; exact h0 s
  | some l =>
      rw [hb] at h0
      show (match (if (!l.isEmpty) = true then some l else none) with
        | none => ∀ s, Q' s key = false
        | some l => l ≠ [] ∧ ∀ s, l.count s = if Q' s key then 1 else 0)
      rw [show (!l.isEmpty) = true by
        rw [Bool.not_eq_true', Bool.eq_false_iff, Ne, List.isEmpty_iff]; exact h0.1]
      rw [if_pos rfl]
      refine ⟨h0.1, ?_⟩
      intro s
      rw [hQ s key]
      by_cases hs : s = slot
      · rw [if_pos hs]
        have hc := h0.2 slot
        rw [hQslot key, if_neg (by simp)] at hc
        rw [hs, hc]
        simp
      · rw [if_neg hs]
        exact h0.2 s

theorem ledgerInv_remove {σ : Type} {m : Manager σ} (hInv : LedgerInv m)
    (row shelf zone : Nat) : LedgerInv (m.remove_item row shelf zone) := by
  cases hl : lookupSlot m.inventory ⟨row, shelf, zone⟩ with
  | none =>
      have hnoop : m.remove_item row shelf zone = m := by
        unfold Manager.remove_item
        dsimp only
        rw [hl]
      rw [hnoop]
      exact hInv
  | some item0 =>
      rw [remove_state m row shelf zone item0 hl]
      have hdec_nodup : ((decCount m.map_ids item0.id).map Prod.fst).Nodup := by
        rw [keys_decCount]; exact hInv.ids_nodup
      have hdecn_nodup : ((decCount m.map_names item0.name).map Prod.fst).Nodup := by
        rw [keys_decCount]; exact hInv.names_nodup
      have hret_nodup :
          ((retainSlot m.map_slots item0.id ⟨row, shelf, zone⟩).map Prod.fst).Nodup := by
        rw [keys_retainSlot]; exact hInv.slots_nodup
      refine ⟨?_, ?_, ?_, ?_, ?_, ?_, ?_, ?_, ?_⟩
      · show ((removeSlotEntry m.inventory ⟨row, shelf, zone⟩).map Prod.fst).Nodup
        exact ((List.filter_sublist _).map Prod.fst).nodup hInv.inv_nodup
      · show (((decCount m.map_ids item0.id).filter fun p =>
            decide (p.2 ≠ 0)).map Prod.fst).Nodup
        exact ((List.filter_sublist _).map Prod.fst).nodup hdec_nodup
      · show (((decCount m.map_names item0.name).filter fun p =>
            decide (p.2 ≠ 0)).map Prod.fst).Nodup
        exact ((List.filter_sublist _).map Prod.fst).nodup hdecn_nodup
      · show (((retainSlot m.map_slots item0.id ⟨row, shelf, zone⟩).filter
            fun p => !p.2.isEmpty).map Prod.fst).Nodup
        exact ((List.filter_sublist _).map Prod.fst).nodup hret_nodup
      · show (((match item0.quality with
            | .Fragile expiration_date _ =>
                retainSlot m.map_dates expiration_date ⟨row, shelf, zone⟩
            | _ => m.map_dates).filter
            fun p : Nat × List Slot => !p.2.isEmpty).map Prod.fst).Pairwise (· < ·)
        cases hq : item0.quality with
        | Fragile e0 mr =>
            refine List.Pairwise.sublist ((List.filter_sublist _).map Prod.fst) ?_
            rw [keys_retainSlot]
            exact hInv.dates_sorted
        | OverSized sz =>
            exact List.Pairwise.sublist ((List.filter_sublist _).map Prod.fst)
              hInv.dates_sorted
        | Normal =>
            exact List.Pairwise.sublist ((List.filter_sublist _).map Prod.fst)
              hInv.dates_sorted
      · -- id counts
        intro id
        show lookupKey ((decCount m.map_ids item0.id).filter fun p : Nat × Nat =>
            decide (p.2 ≠ 0)) id =
          if occCountId (removeSlotEntry m.inventory ⟨row, shelf, zone⟩) id = 0 then none
          else some (occCountId (removeSlotEntry m.inventory ⟨row, shelf, zone⟩) id)
        rw [lookupKey_filterVal (fun c => decide (c ≠ 0)) hdec_nodup, lookupKey_decCount]
        have hcnt := occCountId_remove hInv.inv_nodup hl id
        have hold := hInv.ids_eq id
        by_cases hid : id = item0.id
        · rw [if_pos hid]
          rw [if_pos hid.symm] at hcnt
          cases hc : occCountId m.inventory id with
          | zero => omega
          | succ c' =>
              rw [hc, if_neg (by omega)] at hold
              rw [hold]
              have hc' : occCountId (removeSlotEntry m.inventory ⟨row, shelf, zone⟩) id
                  = c' := by omega
              rw [hc']
              show (if decide (c' + 1 - 1 ≠ 0) = true then some (c' + 1 - 1) else none) =
                if c' = 0 then none else some c'
              by_cases hz : c' = 0
              · subst hz
                simp
              · rw [if_neg hz, if_pos (decide_eq_true (by omega))]
                exact congrArg some (by omega)
        · rw [if_neg hid]
          rw [if_neg (fun hh => hid hh.symm), Nat.add_zero] at hcnt
          rw [← hcnt]
          cases hc : occCountId m.inventory id with
          | zero =>
              rw [hc, if_pos rfl] at hold
              rw [hold]
              simp
          | succ c' =>
              rw [hc, if_neg (by omega)] at hold
              rw [hold]
              show (if decide (c' + 1 ≠ 0) = true then some (c' + 1) else none) =
                if c' + 1 = 0 then none else some (c' + 1)
              rw [if_pos (decide_eq_true (by omega)), if_neg (by omega)]
      · -- name counts
        intro n
        show lookupKey ((decCount m.map_names item0.name).filter
            fun p : String × Nat => decide (p.2 ≠ 0)) n =
          if occCountName (removeSlotEntry m.inventory ⟨row, shelf, zone⟩) n = 0 then none
          else some (occCountName (removeSlotEntry m.inventory ⟨row, shelf, zone⟩) n)
        rw [lookupKey_filterVal (fun c => decide (c ≠ 0)) hdecn_nodup, lookupKey_decCount]
        have hcnt := occCountName_remove hInv.inv_nodup hl n
        have hold := hInv.names_eq n
        by_cases hid : n = item0.name
        · rw [if_pos hid]
          rw [if_pos hid.symm] at hcnt
          cases hc : occCountName m.inventory n with
          | zero => omega
          | succ c' =>
              rw [hc, if_neg (by omega)] at hold
              rw [hold]
              have hc' : occCountName (removeSlotEntry m.inventory ⟨row, shelf, zone⟩) n
                  = c' := by omega
              rw [hc']
              show (if decide (c' + 1 - 1 ≠ 0) = true then some (c' + 1 - 1) else none) =
                if c' = 0 then none else some c'
              by_cases hz : c' = 0
              · subst hz
                simp
              · rw [if_neg hz, if_pos (decide_eq_true (by omega))]
                exact congrArg some (by omega)
        · rw [if_neg hid]
          rw [if_neg (fun hh => hid hh.symm), Nat.add_zero] at hcnt
          rw [← hcnt]
          cases hc : occCountName m.inventory n with
          | zero =>
              rw [hc, if_pos rfl] at hold
              rw [hold]
              simp
          | succ c' =>
              rw [hc, if_neg (by omega)] at hold
              rw [hold]
              show (if decide (c' + 1 ≠ 0) = true then some (c' + 1) else none) =
                if c' + 1 = 0 then none else some (c' + 1)
              rw [if_pos (decide_eq_true (by omega)), if_neg (by omega)]
      · -- slots-by-id buckets
        intro id
        exact retain_filter_bucket_inv m.map_slots item0.id ⟨row, shelf, zone⟩
          hInv.slots_nodup
          (fun s key => occupiesId m.inventory s key)
          (fun s key => occupiesId (removeSlotEntry m.inventory ⟨row, shelf, zone⟩) s key)
          (fun s key => occupiesId_removeEntry m.inventory ⟨row, shelf, zone⟩ s key)
          (fun key hk => by
            show occupiesId m.inventory ⟨row, shelf, zone⟩ key = false
            unfold occupiesId
            rw [hl]
            exact decide_eq_false (fun hh => hk hh.symm))
          hInv.slots_eq id
      · -- expiry buckets
        intro d
        have hold := hInv.dates_eq
        cases hq : item0.quality with
        | Fragile e0 mr =>
            show (match lookupKey ((retainSlot m.map_dates e0 ⟨row, shelf, zone⟩).filter
                fun p => !p.2.isEmpty) d with
              | none => ∀ s,
                  fragileAt (removeSlotEntry m.inventory ⟨row, shelf, zone⟩) s d = false
              | some l => l ≠ [] ∧ ∀ s, l.count s =
                  if fragileAt (removeSlotEntry m.inventory ⟨row, shelf, zone⟩) s d then 1
                  else 0)
            exact retain_filter_bucket_inv m.map_dates e0 ⟨row, shelf, zone⟩
              hInv.dates_sorted.nodup
              (fun s key => fragileAt m.inventory s key)
              (fun s key => fragileAt (removeSlotEntry m.inventory ⟨row, shelf, zone⟩) s key)
              (fun s key => fragileAt_removeEntry m.inventory ⟨row, shelf, zone⟩ s key)
              (fun key hk => by
                show fragileAt m.inventory ⟨row, shelf, zone⟩ key = false
                unfold fragileAt
                rw [hl]
                show (match item0.quality with
                  | .Fragile d' _ => decide (d' = key)
                  | _ => false) = false
                rw [hq]
                exact decide_eq_false (fun hh => hk hh.symm))
              hold d
        | OverSized sz =>
            show (match lookupKey (m.map_dates.filter fun p => !p.2.isEmpty) d with
              | none => ∀ s,
                  fragileAt (removeSlotEntry m.inventory ⟨row, shelf, zone⟩) s d = false
              | some l => l ≠ [] ∧ ∀ s, l.count s =
                  if fragileAt (removeSlotEntry m.inventory ⟨row, shelf, zone⟩) s d then 1
                  else 0)
            exact filter_bucket_inv m.map_dates ⟨row, shelf, zone⟩
              hInv.dates_sorted.nodup
              (fun s key => fragileAt m.inventory s key)
              (fun s key => fragileAt (removeSlotEntry m.inventory ⟨row, shelf, zone⟩) s key)
              (fun s key => fragileAt_removeEntry m.inventory ⟨row, shelf, zone⟩ s key)
              (fun key => by
                show fragileAt m.inventory ⟨row, shelf, zone⟩ key = false
                unfold fragileAt
                rw [hl]
                show (match item0.quality with
                  | .Fragile d' _ => decide (d' = key)
                  | _ => false) = false
                rw [hq])
              hold d
        | Normal =>
            show (match lookupKey (m.map_dates.filter fun p => !p.2.isEmpty) d with
              | none => ∀ s,
                  fragileAt (removeSlotEntry m.inventory ⟨row, shelf, zone⟩) s d = false
              | some l => l ≠ [] ∧ ∀ s, l.count s =
                  if fragileAt (removeSlotEntry m.inventory ⟨row, shelf, zone⟩) s d then 1
                  else 0)
            exact filter_bucket_inv m.map_dates ⟨row, shelf, zone⟩
              hInv.dates_sorted.nodup
              (fun s key => fragileAt m.inventory s key)
              (fun s key => fragileAt (removeSlotEntry m.inventory ⟨row, shelf, zone⟩) s key)
              (fun s key => fragileAt_removeEntry m.inventory ⟨row, shelf, zone⟩ s key)
              (fun key => by
                show fragileAt m.inventory ⟨row, shelf, zone⟩ key = false
                unfold fragileAt
                rw [hl]
                show (match item0.quality with
                  | .Fragile d' _ => decide (d' = key)
                  | _ => false) = false
                rw [hq])
              hold d

theorem ledgerInv_new {σ : Type} (a0 : σ) (filters : List FilterCfg) :
    LedgerInv (Manager.new a0 filters) := by
  refine ⟨by simp [Manager.new], by simp [Manager.new], by simp [Manager.new],
    by simp [Manager.new], by simp [Manager.new], ?_, ?_, ?_, ?_⟩
  · intro id
    show lookupKey [] id = if occCountId [] id = 0 then none else some (occCountId [] id)
    rw [lookupKey_nil]
    simp [occCountId]
  · intro n
    show lookupKey [] n = if occCountName [] n = 0 then none else some (occCountName [] n)
    rw [lookupKey_nil]
    simp [occCountName]
  · intro id
    show (match lookupKey ([] : List (Nat × List Slot)) id with
      | none => ∀ s, occupiesId [] s id = false
      | some l => l ≠ [] ∧ ∀ s, l.count s = if occupiesId [] s id then 1 else 0)
    rw [lookupKey_nil]
    intro s
    rfl
  · intro d
    show (match lookupKey ([] : List (Nat × List Slot)) d with
      | none => ∀ s, fragileAt [] s d = false
      | some l => l ≠ [] ∧ ∀ s, l.count s = if fragileAt [] s d then 1 else 0)
    rw [lookupKey_nil]
    intro s
    rfl

theorem ledgerInv_insert {σ : Type} {alloc : σ → Item → Inventory → Option Slot × σ}
    (hsound : ∀ (a : σ) (it : Item) (inv : Inventory) (s : Slot) (a' : σ),
      alloc a it inv = (some s, a') → is_slot_available s it inv = true)
    {m : Manager σ} (hInv : LedgerInv m) (item : Item) (now : Nat)
    (hsize : 1 ≤ get_item_size item) :
    LedgerInv (m.insert_item alloc item now).2 := by
  unfold Manager.insert_item
  split
  · exact hInv
  · split
    case h_1 a' heq => exact ⟨hInv.inv_nodup, hInv.ids_nodup, hInv.names_nodup,
        hInv.slots_nodup, hInv.dates_sorted, hInv.ids_eq, hInv.names_eq,
        hInv.slots_eq, hInv.dates_eq⟩
    case h_2 slot a' heq =>
        have havail := hsound _ _ _ _ _ heq
        have hlookup : lookupSlot m.inventory slot = none :=
          lookup_none_of_avail havail hsize
        exact ledgerInv_commit
          (show LedgerInv { m with allocator := a' } from
            ⟨hInv.inv_nodup, hInv.ids_nodup, hInv.names_nodup, hInv.slots_nodup,
              hInv.dates_sorted, hInv.ids_eq, hInv.names_eq, hInv.slots_eq,
              hInv.dates_eq⟩)
          slot item now hlookup

/-- The restriction the C1 counterexample forces: inserted items must
occupy at least one zone (`OverSized` spans of 0 break index
consistency). -/
def cmdSizeOk : Cmd → Prop
  | .ins item _ => 1 ≤ get_item_size item
  | .rem _ _ _ => True

theorem ledgerInv_execCmds {σ : Type} {alloc : σ → Item → Inventory → Option Slot × σ}
    (hsound : ∀ (a : σ) (it : Item) (inv : Inventory) (s : Slot) (a' : σ),
      alloc a it inv = (some s, a') → is_slot_available s it inv = true)
    {m : Manager σ} (hInv : LedgerInv m) (cmds : List Cmd)
    (hok : ∀ c ∈ cmds, cmdSizeOk c) : LedgerInv (execCmds alloc m cmds) := by
  induction cmds generalizing m with
  | nil => exact hInv
  | cons c rest ih =>
      rw [show execCmds alloc m (c :: rest) = execCmds alloc (execCmd alloc m c) rest
        from rfl]
      refine ih ?_ (fun c hc => hok c (by simp [hc]))
      cases c with
      | ins item now =>
          exact ledgerInv_insert hsound hInv item now
            (show 1 ≤ get_item_size item from hok (Cmd.ins item now) (by simp))
      | rem r s z => exact ledgerInv_remove hInv r s z

theorem lookupKey_of_mem_nodup {κ β : Type} [DecidableEq κ] {m : List (κ × β)}
    (hn : (m.map Prod.fst).Nodup) {k : κ} {v : β} (hm : (k, v) ∈ m) :
    lookupKey m k = some v := by
  induction m with
  | nil => exact absurd hm (by simp)
  | cons hd tl ih =>
      obtain ⟨a, b⟩ := hd
      rw [List.map_cons, List.nodup_cons] at hn
      rcases List.mem_cons.mp hm with heq | hm'
      · injection heq with h1 h2
        subst h1
        subst h2
        rw [lookupKey_cons, if_pos rfl]
      · rw [lookupKey_cons]
        by_cases hak : a = k
        · subst hak
          exact absurd (List.mem_map_of_mem Prod.fst hm') hn.1
        · rw [if_neg hak]
          exact ih hn.2 hm'

theorem mem_of_lookupKey {κ β : Type} [DecidableEq κ] {m : List (κ × β)} {k : κ}
    {v : β} (h : lookupKey m k = some v) : (k, v) ∈ m := by
  induction m with
  | nil => exact absurd h (by rw [lookupKey_nil]; simp)
  | cons hd tl ih =>
      obtain ⟨a, b⟩ := hd
      rw [lookupKey_cons] at h
      by_cases hak : a = k
      · rw [if_pos hak] at h
        subst hak
        obtain rfl : b = v := Option.some.inj h
        exact List.mem_cons_self _ _
      · rw [if_neg hak] at h
        exact List.mem_cons_of_mem _ (ih h)

theorem fragileAt_unique {inv : Inventory} {s : Slot} {d d' : Nat}
    (h1 : fragileAt inv s d = true) (h2 : fragileAt inv s d' = true) : d = d' := by
  unfold fragileAt at h1 h2
  cases hl : lookupSlot inv s with
  | none => rw [hl] at h1; exact absurd h1 (by simp)
  | some it =>
      rw [hl] at h1 h2
      have h1' : (match it.quality with
        | Quality.Fragile e _ => decide (e = d)
        | _ => false) = true := h1
      have h2' : (match it.quality with
        | Quality.Fragile e _ => decide (e = d')
        | _ => false) = true := h2
      cases hq : it.quality with
      | Fragile e mr =>
          rw [hq] at h1' h2'
          simp only [decide_eq_true_eq] at h1' h2'
          rw [← h1', ← h2']
      | OverSized sz => rw [hq] at h1'; exact absurd h1' (by simp)
      | Normal => rw [hq] at h1'; exact absurd h1' (by simp)

/-- The anchor `s` holds a Fragile occupant whose expiry is at most `T`. -/
def fragileLe (inv : Inventory) (s : Slot) (T : Nat) : Bool :=
  match lookupSlot inv s with
  | some it =>
      match it.quality with
      | .Fragile d _ => decide (d ≤ T)
      | _ => false
  | none => false

/-- The claim-side predicate: the item is Fragile with expiry ≤ `T`. -/
def isExpiredBy (it : Item) (T : Nat) : Bool :=
  match it.quality with
  | .Fragile d _ => decide (d ≤ T)
  | _ => false

theorem count_flatMap_buckets {inv : Inventory} {md : List (Nat × List Slot)} {T : Nat}
    (hn : (md.map Prod.fst).Nodup)
    (hcounts : ∀ p ∈ md, ∀ s : Slot,
      List.count s p.2 = if fragileAt inv s p.1 then 1 else 0)
    (s : Slot) :
    List.count s ((md.filter fun p => decide (p.1 ≤ T)).flatMap fun p => p.2) =
      if ((md.filter fun p => decide (p.1 ≤ T)).map Prod.fst).any
        (fun d => fragileAt inv s d) then 1 else 0 := by
  induction md with
  | nil => simp
  | cons hd tl ih =>
      obtain ⟨d0, l0⟩ := hd
      rw [List.map_cons, List.nodup_cons] at hn
      have hc0 := hcounts (d0, l0) (List.mem_cons_self _ _)
      have ihc := ih hn.2 (fun p hp => hcounts p (List.mem_cons_of_mem _ hp))
      rw [List.filter_cons]
      by_cases hT : d0 ≤ T
      · rw [if_pos (decide_eq_true hT)]
        rw [List.flatMap_cons, List.count_append, ihc, List.map_cons]
        by_cases hf : fragileAt inv s d0
        · have h1 : List.count s l0 = 1 := by rw [hc0 s, if_pos hf]
          have h0 : ((tl.filter fun p => decide (p.1 ≤ T)).map Prod.fst).any
              (fun d => fragileAt inv s d) = false := by
            rw [Bool.eq_false_iff, Ne, List.any_eq_true]
            rintro ⟨d, hdmem, hdf⟩
            have hd0 : d = d0 := fragileAt_unique hdf hf
            subst hd0
            apply hn.1
            obtain ⟨p, hp, hpe⟩ := List.mem_map.mp hdmem
            have hptl : p ∈ tl := List.mem_of_mem_filter hp
            have hfst : p.1 ∈ List.map Prod.fst tl := List.mem_map_of_mem Prod.fst hptl
            exact hpe ▸ hfst
          rw [h0, if_neg (by simp), h1]
          rw [if_pos (List.any_eq_true.mpr ⟨d0, by simp, hf⟩)]
        · have h1 : List.count s l0 = 0 := by rw [hc0 s, if_neg hf]
          rw [h1, Nat.zero_add]
          have hconsany : ((d0 :: (tl.filter fun p => decide (p.1 ≤ T)).map Prod.fst).any
              (fun d => fragileAt inv s d)) =
              ((tl.filter fun p => decide (p.1 ≤ T)).map Prod.fst).any
                (fun d => fragileAt inv s d) := by
            rw [List.any_cons]
            rw [Bool.eq_false_iff.mpr (fun hc => hf hc) ]
            simp
          rw [hconsany]
      · rw [if_neg (by simpa using hT)]
        exact ihc

theorem count_keys_filter {inv : Inventory} (q : Slot × Item → Bool)
    (hn : (inv.map Prod.fst).Nodup) (s : Slot) :
    List.count s ((inv.filter q).map Prod.fst) =
      match lookupSlot inv s with
      | some it => if q (s, it) then 1 else 0
      | none => 0 := by
  induction inv with
  | nil => rfl
  | cons hd tl ih =>
      obtain ⟨a, b⟩ := hd
      rw [List.map_cons, List.nodup_cons] at hn
      rw [lookupSlot_cons, List.filter_cons]
      by_cases has : a = s
      · subst has
        rw [if_pos rfl]
        by_cases hq : q (a, b)
        · rw [if_pos hq, List.map_cons, List.count_cons]
          have h0 : List.count a ((tl.filter q).map Prod.fst) = 0 := by
            rw [List.count_eq_zero]
            intro hmem
            apply hn.1
            obtain ⟨p, hp, hpe⟩ := List.mem_map.mp hmem
            have hptl : p ∈ tl := List.mem_of_mem_filter hp
            have hfst : p.1 ∈ List.map Prod.fst tl := List.mem_map_of_mem Prod.fst hptl
            exact hpe ▸ hfst
          rw [h0]
          show 0 + (if (a == a) = true then 1 else 0) = if q (a, b) = true then 1 else 0
          rw [if_pos hq]
          simp
        · rw [if_neg hq]
          have h0 : List.count a ((tl.filter q).map Prod.fst) = 0 := by
            rw [List.count_eq_zero]
            intro hmem
            apply hn.1
            obtain ⟨p, hp, hpe⟩ := List.mem_map.mp hmem
            have hptl : p ∈ tl := List.mem_of_mem_filter hp
            have hfst : p.1 ∈ List.map Prod.fst tl := List.mem_map_of_mem Prod.fst hptl
            exact hpe ▸ hfst
          rw [h0]
          show (0 : Nat) = if q (a, b) = true then 1 else 0
          rw [if_neg hq]
      · rw [if_neg has]
        by_cases hq : q (a, b)
        · rw [if_pos hq, List.map_cons, List.count_cons]
          have hbeq : (a == s) = false := beq_eq_false_iff_ne.mpr has
          rw [hbeq]
          show List.count s ((tl.filter q).map Prod.fst) + 0 = _
          rw [Nat.add_zero]
          exact ih hn.2
        · rw [if_neg hq]
          exact ih hn.2

theorem filterMap_eq_map {α β : Type} (f : α → Option β) (g : α → β) (l : List α)
    (h : ∀ x ∈ l, f x = some (g x)) : l.filterMap f = l.map g := by
  induction l with
  | nil => rfl
  | cons hd tl ih =>
      rw [List.filterMap_cons, h hd (by simp), List.map_cons,
        ih (fun x hx => h x (by simp [hx]))]

theorem lookupSlot_of_mem_nodup {inv : Inventory}
    (hn : (inv.map Prod.fst).Nodup) {p : Slot × Item} (hp : p ∈ inv) :
    lookupSlot inv p.1 = some p.2 := by
  rw [lookupSlot_eq_lookupKey]
  exact lookupKey_of_mem_nodup hn hp

theorem find_expired_perm {σ : Type} {st : Manager σ} (hInv : LedgerInv st) (T : Nat) :
    (st.find_expired T).Perm
      ((st.inventory.filter fun p => isExpiredBy p.2 T).map Prod.snd) := by
  have hcounts : ∀ p ∈ st.map_dates, ∀ s : Slot,
      List.count s p.2 = if fragileAt st.inventory s p.1 then 1 else 0 := by
    intro p hp s
    have hlk : lookupKey st.map_dates p.1 = some p.2 :=
      lookupKey_of_mem_nodup hInv.dates_sorted.nodup hp
    have hd := hInv.dates_eq p.1
    rw [hlk] at hd
    exact hd.2 s
  have hcond : ∀ s : Slot,
      ((st.map_dates.filter fun p => decide (p.1 ≤ T)).map Prod.fst).any
        (fun d => fragileAt st.inventory s d) = fragileLe st.inventory s T := by
    intro s
    by_cases hf : fragileLe st.inventory s T
    · rw [hf]
      rw [List.any_eq_true]
      unfold fragileLe at hf
      cases hl : lookupSlot st.inventory s with
      | none => rw [hl] at hf; exact absurd hf (by simp)
      | some it =>
          rw [hl] at hf
          have hf' : (match it.quality with
            | Quality.Fragile e _ => decide (e ≤ T)
            | _ => false) = true := hf
          cases hq : it.quality with
          | Fragile e mr =>
              rw [hq] at hf'
              have heT : e ≤ T := of_decide_eq_true hf'
              have hfe : fragileAt st.inventory s e = true := fragileAt_true_at hl hq
              refine ⟨e, ?_, hfe⟩
              have hd := hInv.dates_eq e
              cases hb : lookupKey st.map_dates e with
              | none =>
                  rw [hb] at hd
                  rw [hd s] at hfe
                  exact absurd hfe (by simp)
              | some l =>
                  have hmem := mem_of_lookupKey hb
                  have hfmem : (e, l) ∈ st.map_dates.filter
                      fun p => decide (p.1 ≤ T) :=
                    List.mem_filter.mpr ⟨hmem, decide_eq_true heT⟩
                  exact List.mem_map_of_mem Prod.fst hfmem
          | OverSized sz => rw [hq] at hf'; exact absurd hf' (by simp)
          | Normal => rw [hq] at hf'; exact absurd hf' (by simp)
    · rw [Bool.eq_false_iff.mpr hf, Bool.eq_false_iff, Ne, List.any_eq_true]
      rintro ⟨d, hdm, hdf⟩
      apply hf
      have hdT : d ≤ T := by
        obtain ⟨p, hp, hpe⟩ := List.mem_map.mp hdm
        have hpt := List.of_mem_filter hp
        rw [hpe] at hpt
        exact of_decide_eq_true hpt
      unfold fragileAt at hdf
      unfold fragileLe
      cases hl : lookupSlot st.inventory s with
      | none => rw [hl] at hdf; exact absurd hdf (by simp)
      | some it =>
          rw [hl] at hdf
          have hdf' : (match it.quality with
            | Quality.Fragile e _ => decide (e = d)
            | _ => false) = true := hdf
          show (match it.quality with
            | Quality.Fragile e _ => decide (e ≤ T)
            | _ => false) = true
          cases hq : it.quality with
          | Fragile e mr =>
              rw [hq] at hdf'
              have hed : e = d := of_decide_eq_true hdf'
              exact decide_eq_true (hed ▸ hdT)
          | OverSized sz => rw [hq] at hdf'; exact absurd hdf' (by simp)
          | Normal => rw [hq] at hdf'; exact absurd hdf' (by simp)
  have hslotcount : ∀ s : Slot,
      List.count s ((st.map_dates.filter fun p => decide (p.1 ≤ T)).flatMap
        fun p => p.2) = if fragileLe st.inventory s T then 1 else 0 := by
    intro s
    rw [count_flatMap_buckets hInv.dates_sorted.nodup hcounts s, hcond s]
  have hanch : ∀ s : Slot,
      List.count s ((st.inventory.filter fun p => isExpiredBy p.2 T).map Prod.fst) =
        if fragileLe st.inventory s T then 1 else 0 := by
    intro s
    rw [count_keys_filter (fun p => isExpiredBy p.2 T) hInv.inv_nodup]
    unfold fragileLe
    cases hl : lookupSlot st.inventory s with
    | none => rfl
    | some it => rfl
  have hperm1 : ((st.map_dates.filter fun p => decide (p.1 ≤ T)).flatMap
      fun p => p.2).Perm
      ((st.inventory.filter fun p => isExpiredBy p.2 T).map Prod.fst) :=
    List.perm_iff_count.mpr (fun s => by rw [hslotcount s, hanch s])
  have hfm : st.find_expired T =
      ((st.map_dates.filter fun p => decide (p.1 ≤ T)).flatMap fun p => p.2).map
        (fun s => (lookupSlot st.inventory s).getD (Item.new 0 "" 0 .Normal)) := by
    unfold Manager.find_expired
    apply filterMap_eq_map
    intro x hx
    have hcx : 0 < List.count x ((st.map_dates.filter fun p => decide (p.1 ≤ T)).flatMap
        fun p => p.2) := List.count_pos_iff.mpr hx
    have hfx : fragileLe st.inventory x T = true := by
      by_cases hf : fragileLe st.inventory x T
      · exact hf
      · rw [hslotcount x, if_neg hf] at hcx
        omega
    unfold fragileLe at hfx
    cases hl : lookupSlot st.inventory x with
    | none => rw [hl] at hfx; exact absurd hfx (by simp)
    | some it => rfl
  have hmapeq : (((st.inventory.filter fun p => isExpiredBy p.2 T).map Prod.fst).map
      (fun s => (lookupSlot st.inventory s).getD (Item.new 0 "" 0 .Normal))) =
      (st.inventory.filter fun p => isExpiredBy p.2 T).map Prod.snd := by
    rw [List.map_map]
    apply List.map_congr_left
    intro p hp
    have hpin : p ∈ st.inventory := List.mem_of_mem_filter hp
    have hlp : lookupSlot st.inventory p.1 = some p.2 :=
      lookupSlot_of_mem_nodup hInv.inv_nodup hpin
    show (lookupSlot st.inventory p.1).getD (Item.new 0 "" 0 .Normal) = p.2
    rw [hlp]
    rfl
  rw [hfm, ← hmapeq]
  exact hperm1.map _

/-- The two-call sequence exhibiting index drift: a Normal item at the
origin, then an `OverSized` item of span 0, which the availability
predicate lets through at the occupied origin and `or_insert` silently
drops while the indices are still incremented. -/
def c1DriftState : Manager RoundRobinAllocator :=
  execCmds RoundRobinAllocator.alloc
    (Manager.new (⟨none⟩ : RoundRobinAllocator) [])
    [.ins (Item.new 0 "Flour" 1 .Normal) 0,
     .ins (Item.new 1 "Wood" 1 (.OverSized 0)) 1]

/-- **C1 counterexample.** In the reachable state `c1DriftState`,
`count_id 1` reports one item of id 1 while the occupancy map holds no
occupant with id 1 (and `find_id 1` reports an anchor that actually
holds the id-0 item): the index-occupancy equivalence fails as stated. -/
theorem index_occupancy_equiv_counterexample :
    c1DriftState.count_id 1 = 1 ∧ occCountId c1DriftState.inventory 1 = 0 ∧
      c1DriftState.find_id 1 = some [⟨0, 0, 0⟩] ∧
      occupiesId c1DriftState.inventory ⟨0, 0, 0⟩ 1 = false := by decide

/-- **C1 (amended).** For every ledger state reachable by
`insert_item`/`remove_item` calls from a fresh `Manager` (with any
allocator that only returns available slots) in which every inserted
item has footprint size at least 1: `count_id` and `count_name` equal
the occupant counts, `find_id` returns `none` exactly when no anchor
holds the id and otherwise the exact duplicate-free list of those
anchors, and `find_expired T` returns exactly the Fragile occupants
with expiry ≤ T (as a multiset). -/
theorem index_occupancy_equiv {σ : Type}
    (alloc : σ → Item → Inventory → Option Slot × σ)
    (hsound : ∀ (a : σ) (it : Item) (inv : Inventory) (s : Slot) (a' : σ),
      alloc a it inv = (some s, a') → is_slot_available s it inv = true)
    (a0 : σ) (filters : List FilterCfg) (cmds : List Cmd)
    (hok : ∀ c ∈ cmds, cmdSizeOk c) (st : Manager σ)
    (hst : st = execCmds alloc (Manager.new a0 filters) cmds) :
    (∀ id, st.count_id id = occCountId st.inventory id) ∧
      (∀ name, st.count_name name = occCountName st.inventory name) ∧
      (∀ id, st.find_id id = none ↔ ∀ s, occupiesId st.inventory s id = false) ∧
      (∀ id l, st.find_id id = some l →
        l ≠ [] ∧ ∀ s : Slot, l.count s = if occupiesId st.inventory s id then 1 else 0) ∧
      (∀ T, (st.find_expired T).Perm
        ((st.inventory.filter fun p => isExpiredBy p.2 T).map Prod.snd)) := by
  have hInv : LedgerInv st := by
    rw [hst]
    exact ledgerInv_execCmds hsound (ledgerInv_new a0 filters) cmds hok
  refine ⟨?_, ?_, ?_, ?_, fun T => find_expired_perm hInv T⟩
  · intro id
    show (lookupKey st.map_ids id).getD 0 = occCountId st.inventory id
    have h := hInv.ids_eq id
    by_cases hc : occCountId st.inventory id = 0
    · rw [if_pos hc] at h
      rw [h, hc]
      rfl
    · rw [if_neg hc] at h
      rw [h]
      rfl
  · intro n
    show (lookupKey st.map_names n).getD 0 = occCountName st.inventory n
    have h := hInv.names_eq n
    by_cases hc : occCountName st.inventory n = 0
    · rw [if_pos hc] at h
      rw [h, hc]
      rfl
    · rw [if_neg hc] at h
      rw [h]
      rfl
  · intro id
    have h := hInv.slots_eq id
    constructor
    · intro hnone
      rw [show st.find_id id = lookupKey st.map_slots id from rfl] at hnone
      rw [hnone] at h
      exact h
    · intro hall
      cases hb : st.find_id id with
      | none => rfl
      | some l =>
          rw [show st.find_id id = lookupKey st.map_slots id from rfl] at hb
          rw [hb] at h
          obtain ⟨hne, hcnt⟩ := h
          obtain ⟨s, hs⟩ := List.exists_mem_of_ne_nil l hne
          have hcs := hcnt s
          rw [hall s] at hcs
          simp only [Bool.false_eq_true, if_false] at hcs
          have hpos := List.count_pos_iff.mpr hs
          omega
  · intro id l hb
    have h := hInv.slots_eq id
    rw [show st.find_id id = lookupKey st.map_slots id from rfl] at hb
    rw [hb] at h
    exact h

/-- Witness for `index_occupancy_equiv` on a concrete two-insert
history: the id count, name count, anchor list and expiry query all
agree with the occupancy map. -/
theorem index_occupancy_equiv_witness :
    (execCmds RoundRobinAllocator.alloc
        (Manager.new (⟨none⟩ : RoundRobinAllocator) [])
        [.ins (Item.new 0 "Flour" 2 .Normal) 0,
         .ins (Item.new 2 "Glass" 1 (.Fragile 5 1)) 1]).count_id 0 =
      occCountId (execCmds RoundRobinAllocator.alloc
        (Manager.new (⟨none⟩ : RoundRobinAllocator) [])
        [.ins (Item.new 0 "Flour" 2 .Normal) 0,
         .ins (Item.new 2 "Glass" 1 (.Fragile 5 1)) 1]).inventory 0 :=
  (index_occupancy_equiv RoundRobinAllocator.alloc
    (fun _ _ _ _ _ h => rr_alloc_avail h) ⟨none⟩ []
    [.ins (Item.new 0 "Flour" 2 .Normal) 0,
     .ins (Item.new 2 "Glass" 1 (.Fragile 5 1)) 1]
    (by
      intro c hc
      simp only [List.mem_cons, List.not_mem_nil, or_false] at hc
      rcases hc with rfl | rfl
      · show 1 ≤ get_item_size (Item.new 0 "Flour" 2 .Normal)
        decide
      · show 1 ≤ get_item_size (Item.new 2 "Glass" 1 (.Fragile 5 1))
        decide)
    _ rfl).1 0

/-- **C9 counterexample.** After inserting a Normal item at the origin,
inserting an `OverSized` item of span 0 returns `Ok` while storing
nothing: the occupancy map still holds only the first (stamped) item,
which does not compare equal to the second, so no `get_item` result
compares equal to the successfully "inserted" item. -/
theorem item_eq_timestamp_counterexample :
    (((execCmds RoundRobinAllocator.alloc
        (Manager.new (⟨none⟩ : RoundRobinAllocator) [])
        [.ins (Item.new 0 "Flour" 1 .Normal) 0]).insert_item
        RoundRobinAllocator.alloc (Item.new 1 "Wood" 1 (.OverSized 0)) 1).1.isOk
      = true) ∧
    ((execCmds RoundRobinAllocator.alloc
        (Manager.new (⟨none⟩ : RoundRobinAllocator) [])
        [.ins (Item.new 0 "Flour" 1 .Normal) 0]).insert_item
        RoundRobinAllocator.alloc (Item.new 1 "Wood" 1 (.OverSized 0)) 1).2.inventory =
      [(⟨0, 0, 0⟩, (Item.new 0 "Flour" 1 .Normal).update_timestamp 0)] ∧
    itemEq ((Item.new 0 "Flour" 1 .Normal).update_timestamp 0)
      (Item.new 1 "Wood" 1 (.OverSized 0)) = false := by decide

/-- **C9 (amended).** `Item` equality compares id, name, quantity and
quality (payload included) and ignores the timestamp; consequently,
provided the inserted item's footprint size is at least 1, a successful
insert stores an item retrievable by `get_item` that compares equal to
the caller's un-timestamped item. -/
theorem item_eq_ignores_timestamp {σ : Type}
    (alloc : σ → Item → Inventory → Option Slot × σ)
    (hsound : ∀ (a : σ) (it : Item) (inv : Inventory) (s : Slot) (a' : σ),
      alloc a it inv = (some s, a') → is_slot_available s it inv = true) :
    (∀ a b : Item, itemEq a b = true ↔
      a.id = b.id ∧ a.name = b.name ∧ a.quantity = b.quantity ∧ a.quality = b.quality) ∧
      (∀ (m : Manager σ) (item : Item) (now : Nat) (m' : Manager σ),
        1 ≤ get_item_size item →
        m.insert_item alloc item now = (.ok (), m') →
        ∃ r s z it, m'.get_item r s z = some it ∧ itemEq it item = true) := by
  constructor
  · intro a b
    unfold itemEq
    simp [Bool.and_eq_true, decide_eq_true_eq, and_assoc]
  · intro m item now m' hsize h
    unfold Manager.insert_item at h
    split at h
    · simp at h
    · split at h
      case h_1 a' heq => simp at h
      case h_2 slot a' heq =>
          have havail := hsound _ _ _ _ _ heq
          have hlookup : lookupSlot m.inventory slot = none :=
            lookup_none_of_avail havail hsize
          simp only [Prod.mk.injEq] at h
          refine ⟨slot.row, slot.shelf, slot.zone, item.update_timestamp now, ?_, ?_⟩
          · show lookupSlot m'.inventory ⟨slot.row, slot.shelf, slot.zone⟩ =
              some (item.update_timestamp now)
            rw [show (⟨slot.row, slot.shelf, slot.zone⟩ : Slot) = slot from rfl]
            rw [← h.2]
            rw [commit_state { m with allocator := a' } slot item now hlookup]
            show lookupSlot (m.inventory ++ [(slot, item.update_timestamp now)]) slot =
              some (item.update_timestamp now)
            rw [lookupSlot_insert hlookup, if_pos rfl]
          · unfold itemEq
            simp [Item.update_timestamp]

/-- Witness for `item_eq_ignores_timestamp`: inserting a Normal item
into a fresh ledger yields a retrievable item equal (ignoring the
timestamp) to the one the caller constructed. -/
theorem item_eq_ignores_timestamp_witness :
    ∃ r s z it,
      ((Manager.new (⟨none⟩ : RoundRobinAllocator) []).insert_item
          RoundRobinAllocator.alloc (Item.new 4 "Jam" 2 .Normal) 9).2.get_item r s z =
        some it ∧ itemEq it (Item.new 4 "Jam" 2 .Normal) = true :=
  (item_eq_ignores_timestamp RoundRobinAllocator.alloc
    (fun _ _ _ _ _ h => rr_alloc_avail h)).2
    (Manager.new (⟨none⟩ : RoundRobinAllocator) []) (Item.new 4 "Jam" 2 .Normal) 9 _
    (by decide) rfl

/-- No occupant's strictly-interior footprint cell (zones strictly after
its anchor, before the end of its span) is itself an anchor. -/
def TrailFree (inv : Inventory) : Prop :=
  ∀ (s : Slot) (it : Item), lookupSlot inv s = some it →
    ∀ z', s.zone < z' → z' < s.zone + get_item_size it →
      lookupSlot inv ⟨s.row, s.shelf, z'⟩ = none

theorem trailFree_nil : TrailFree ([] : Inventory) := by
  intro s it hit z' h1 h2
  rw [lookupSlot_eq_lookupKey, lookupKey_nil]

theorem trailFree_insert {σ : Type} {alloc : σ → Item → Inventory → Option Slot × σ}
    (hsound : ∀ (a : σ) (it : Item) (inv : Inventory) (s : Slot) (a' : σ),
      alloc a it inv = (some s, a') → is_slot_available s it inv = true)
    {m : Manager σ} (hTF : TrailFree m.inventory) (item : Item) (now : Nat) :
    TrailFree (m.insert_item alloc item now).2.inventory := by
  unfold Manager.insert_item
  split
  · exact hTF
  · split
    case h_1 a' heq => exact hTF
    case h_2 slot a' heq =>
        have havail := hsound _ _ _ _ _ heq
        simp only [is_slot_available] at havail
        split_ifs at havail with h1 h2
        have hfw : ∀ zz, slot.zone ≤ zz → zz < slot.zone + get_item_size item →
            lookupSlot m.inventory ⟨slot.row, slot.shelf, zz⟩ = none := by
          intro zz ha hb
          cases hx : lookupSlot m.inventory ⟨slot.row, slot.shelf, zz⟩ with
          | none => rfl
          | some it0 =>
              exact absurd (List.any_eq_true.mpr
                ⟨zz, mem_rustRange.mpr ⟨ha, hb⟩, by rw [hx]; rfl⟩) h2
        rw [Bool.not_eq_true'] at havail
        have hbw : ∀ zz it0, zz < slot.zone →
            lookupSlot m.inventory ⟨slot.row, slot.shelf, zz⟩ = some it0 →
            get_item_size it0 + zz ≤ slot.zone := by
          intro zz it0 hz hx
          by_contra hcon
          push_neg at hcon
          have hany : ((rustRange 0 slot.zone).any fun z =>
              match lookupSlot m.inventory ⟨slot.row, slot.shelf, z⟩ with
              | some it => decide (slot.zone < get_item_size it + z)
              | none => false) = true :=
            List.any_eq_true.mpr ⟨zz, mem_rustRange.mpr ⟨Nat.zero_le _, hz⟩, by
              rw [hx]
              exact decide_eq_true (by omega)⟩
          rw [havail] at hany
          exact absurd hany (by simp)
        cases hl : lookupSlot m.inventory slot with
        | some it0 =>
            have hskip : (({ m with allocator := a' } :
                Manager σ).update_maps_on_insert slot item).insert_item_raw
                  slot item now =
                ({ m with allocator := a' } : Manager σ).update_maps_on_insert slot item := by
              unfold Manager.insert_item_raw Manager.update_maps_on_insert
              dsimp only
              rw [hl]
            show TrailFree ((({ m with allocator := a' } :
              Manager σ).update_maps_on_insert slot item).insert_item_raw
                slot item now).inventory
            rw [hskip]
            exact hTF
        | none =>
            show TrailFree ((({ m with allocator := a' } :
              Manager σ).update_maps_on_insert slot item).insert_item_raw
                slot item now).inventory
            rw [commit_state { m with allocator := a' } slot item now hl]
            show TrailFree (m.inventory ++ [(slot, item.update_timestamp now)])
            intro s it hit z' hz1 hz2
            rw [lookupSlot_insert hl] at hit
            rw [lookupSlot_insert hl]
            by_cases hx : (⟨s.row, s.shelf, z'⟩ : Slot) = slot
            · exfalso
              have hzz : z' = slot.zone := congrArg Slot.zone hx
              by_cases hs : s = slot
              · have : s.zone = slot.zone := congrArg Slot.zone hs
                omega
              · rw [if_neg hs] at hit
                have hrow : s.row = slot.row := by rw [← hx]
                have hshelf : s.shelf = slot.shelf := by rw [← hx]
                have hseq : (⟨slot.row, slot.shelf, s.zone⟩ : Slot) = s := by
                  rw [← hrow, ← hshelf]
                have hlt : s.zone < slot.zone := by omega
                have hle := hbw s.zone it hlt (by rw [hseq]; exact hit)
                omega
            · rw [if_neg hx]
              by_cases hs : s = slot
              · rw [if_pos hs] at hit
                obtain rfl : item.update_timestamp now = it := Option.some.inj hit
                have hrow : s.row = slot.row := congrArg Slot.row hs
                have hshelf : s.shelf = slot.shelf := congrArg Slot.shelf hs
                have hzone : s.zone = slot.zone := congrArg Slot.zone hs
                have hsz : get_item_size (item.update_timestamp now) =
                    get_item_size item := rfl
                rw [hrow, hshelf]
                exact hfw z' (by omega) (by omega)
              · rw [if_neg hs] at hit
                exact hTF s it hit z' hz1 hz2

theorem trailFree_remove {σ : Type} {m : Manager σ} (hTF : TrailFree m.inventory)
    (row shelf zone : Nat) : TrailFree (m.remove_item row shelf zone).inventory := by
  cases hl : lookupSlot m.inventory ⟨row, shelf, zone⟩ with
  | none =>
      have hnoop : m.remove_item row shelf zone = m := by
        unfold Manager.remove_item
        dsimp only
        rw [hl]
      rw [hnoop]
      exact hTF
  | some item0 =>
      rw [remove_state m row shelf zone item0 hl]
      show TrailFree (removeSlotEntry m.inventory ⟨row, shelf, zone⟩)
      intro s it hit z' hz1 hz2
      rw [lookupSlot_removeEntry] at hit
      rw [lookupSlot_removeEntry]
      by_cases hx : (⟨s.row, s.shelf, z'⟩ : Slot) = (⟨row, shelf, zone⟩ : Slot)
      · rw [if_pos hx]
      · rw [if_neg hx]
        by_cases hs : s = (⟨row, shelf, zone⟩ : Slot)
        · rw [if_pos hs] at hit
          exact absurd hit (by simp)
        · rw [if_neg hs] at hit
          exact hTF s it hit z' hz1 hz2

theorem trailFree_execCmds {σ : Type} {alloc : σ → Item → Inventory → Option Slot × σ}
    (hsound : ∀ (a : σ) (it : Item) (inv : Inventory) (s : Slot) (a' : σ),
      alloc a it inv = (some s, a') → is_slot_available s it inv = true)
    {m : Manager σ} (hTF : TrailFree m.inventory) (cmds : List Cmd) :
    TrailFree (execCmds alloc m cmds).inventory := by
  induction cmds generalizing m with
  | nil => exact hTF
  | cons c rest ih =>
      rw [show execCmds alloc m (c :: rest) = execCmds alloc (execCmd alloc m c) rest
        from rfl]
      refine ih ?_
      cases c with
      | ins item now => exact trailFree_insert hsound hTF item now
      | rem r s z => exact trailFree_remove hTF r s z

/-- **C10.** In any reachable ledger state holding an OverSized occupant
of span ≥ 2, `remove_item` on a strictly-interior footprint coordinate
is a complete no-op (occupancy map, all four indices, allocator and
filters unchanged), the item stays retrievable at its anchor, and only
`remove_item` at the anchor itself deletes it. -/
theorem remove_trailing_cell_noop {σ : Type}
    (alloc : σ → Item → Inventory → Option Slot × σ)
    (hsound : ∀ (a : σ) (it : Item) (inv : Inventory) (s : Slot) (a' : σ),
      alloc a it inv = (some s, a') → is_slot_available s it inv = true)
    (a0 : σ) (filters : List FilterCfg) (cmds : List Cmd) (st : Manager σ)
    (hst : st = execCmds alloc (Manager.new a0 filters) cmds)
    (r sh z : Nat) (it : Item) (sp : Nat)
    (hit : lookupSlot st.inventory ⟨r, sh, z⟩ = some it)
    (hq : it.quality = .OverSized sp) (_hsp : 2 ≤ sp)
    (z' : Nat) (hz1 : z < z') (hz2 : z' < z + sp) :
    st.remove_item r sh z' = st ∧
      (st.remove_item r sh z').get_item r sh z = some it ∧
      (st.remove_item r sh z).get_item r sh z = none := by
  have hTF : TrailFree st.inventory := by
    rw [hst]
    exact trailFree_execCmds hsound trailFree_nil cmds
  have hsize : get_item_size it = sp := by
    unfold get_item_size
    rw [hq]
  have hnone : lookupSlot st.inventory ⟨r, sh, z'⟩ = none :=
    hTF ⟨r, sh, z⟩ it hit z' hz1 (by rw [hsize]; exact hz2)
  have hnoop : st.remove_item r sh z' = st := by
    unfold Manager.remove_item
    dsimp only
    rw [hnone]
  refine ⟨hnoop, ?_, ?_⟩
  · rw [hnoop]
    exact hit
  · rw [remove_state st r sh z it hit]
    show lookupSlot (removeSlotEntry st.inventory ⟨r, sh, z⟩) ⟨r, sh, z⟩ = none
    rw [lookupSlot_removeEntry, if_pos rfl]

/-- Witness for `remove_trailing_cell_noop` on a concrete span-2
occupant anchored at the origin: removing at the trailing cell (0,0,1)
changes nothing and the item is still at (0,0,0); removing at the
anchor frees it. -/
theorem remove_trailing_cell_noop_witness :
    (execCmds RoundRobinAllocator.alloc
        (Manager.new (⟨none⟩ : RoundRobinAllocator) [])
        [.ins (Item.new 7 "Pipe" 1 (.OverSized 2)) 3]).remove_item 0 0 1 =
      execCmds RoundRobinAllocator.alloc
        (Manager.new (⟨none⟩ : RoundRobinAllocator) [])
        [.ins (Item.new 7 "Pipe" 1 (.OverSized 2)) 3] :=
  (remove_trailing_cell_noop RoundRobinAllocator.alloc
    (fun _ _ _ _ _ h => rr_alloc_avail h) ⟨none⟩ []
    [.ins (Item.new 7 "Pipe" 1 (.OverSized 2)) 3] _ rfl 0 0 0
    ((Item.new 7 "Pipe" 1 (.OverSized 2)).update_timestamp 3) 2 (by decide) rfl
    (by decide) 1 (by decide) (by decide)).1
